import Mathlib

/-!
Leela Zero search-tree node (`src/UCTNode.cpp`)

A shallow embedding of the tree node of the Monte Carlo tree search and the
properties of its expansion handshake, child linking, back-propagation,
evaluation, Beta parameters, final move choice, child order and child selection.

Conventions of the embedding:

* `float` and `double` values are exact rationals (`ℚ`) and operations on them
  are exact, except in the definitions that take an `Arith`: there the result
  of each operation is rounded to the type the source gives it. A `float`
  literal compared with a stored value (`0.8f`) is its binary32 value.
* `int` counters (`m_visits`, `nodecount`) are unbounded integers; the search
  driver keeps them far below the 32-bit limit.
* `assert` is checked: a function containing an assertion returns `Option`, and
  `none` is a failed assertion.
* Atomics are read and written one call at a time (serial execution); a spin
  wait that no other call can end does not return.
* The random source of a call is a parameter: the value of the uniform draw and
  the values of the Beta draws.
* Names declared in headers that are not part of the sources (`BOARD_SIZE`,
  `cfg_dumbpass`, `FastBoard::BLACK`, `FastBoard::WHITE`, `FastBoard::PASS`) are
  fields of `Config`: every definition takes them as a parameter.
-/

namespace LeelaZero

/-! ## Data model -/

/-- Modelled from the spec: the three values of `expand_state`. The enum
`UCTNode::ExpandState` is used by `UCTNode.cpp` and declared in a header that is
not among the sources. -/
inductive ExpandState where
  | INITIAL
  | EXPANDING
  | EXPANDED
deriving DecidableEq, Repr

/-- Status of a node, the enum `UCTNode::Status` of `UCTNode.h`. -/
inductive Status where
  | INVALID
  | PRUNED
  | ACTIVE
deriving DecidableEq, Repr

/-- Constants that the node code reads from `config.h`, `GTP.h` and `FastBoard.h`,
none of them among the sources: they are parameters of every definition. -/
structure Config where
  BOARD_SIZE : Nat
  cfg_dumbpass : Bool
  BLACK : Int
  WHITE : Int
  PASS : Int

/-- Number of board points, `BOARD_SIZE * BOARD_SIZE`. -/
def Config.NUM_INTERSECTIONS (cfg : Config) : Nat := cfg.BOARD_SIZE * cfg.BOARD_SIZE

/-- The smallest positive normal `float`, `std::numeric_limits<float>::min()`. -/
def FLT_MIN : ℚ := 1 / 2 ^ 126

/-- Modelled from the spec: the scalar attributes of a node and their initial
values. `UCTNode.h` declares `m_move`, `m_virtual_loss{0}`, `m_visits{0}`,
`m_net_eval{0.0f}`, `m_blackevals{0.0}`, `m_status{ACTIVE}` and
`m_min_psa_ratio_children{2.0f}`; the members `UCTNode.cpp` uses beyond these
(`m_policy`, `m_net_variance`, `m_squared_eval_diff`, `m_expand_state`,
`m_distribution`, `m_policy_explored`) follow the data model of the
specification: accumulators start at 0, `expand_state` at INITIAL, and the
distribution override is unset. -/
structure NodeData where
  m_move : Int
  m_policy : ℚ
  m_virtual_loss : Int := 0
  m_visits : Int := 0
  m_net_eval : ℚ := 0
  m_net_variance : ℚ := 0
  m_blackevals : ℚ := 0
  m_squared_eval_diff : ℚ := 0
  m_status : Status := Status.ACTIVE
  m_expand_state : ExpandState := ExpandState.INITIAL
  m_min_psa_ratio_children : ℚ := 2
  m_distribution : Option (ℚ × ℚ) := none
  m_policy_explored : ℚ := 0
deriving DecidableEq, Repr

/-- Modelled from the spec: a child slot (`UCTNodePointer`, whose header is not
among the sources) holds the prior pair `(vertex, policy)` alone (deflated) or a
constructed node (inflated). -/
inductive UCTNodePointer where
  | deflated (vertex : Int) (policy : ℚ)
  | inflated (data : NodeData) (children : List UCTNodePointer)
deriving Repr

/-- A tree node: its scalar members and the ordered list of child slots. -/
structure UCTNode extends NodeData where
  m_children : List UCTNodePointer := []
deriving Repr

/-- The constructor `UCTNode::UCTNode(vertex, policy)`. -/
def UCTNode.new (vertex : Int) (policy : ℚ) : UCTNode :=
  { m_move := vertex, m_policy := policy }

/-- Modelled from the spec: the prior of a child slot (`UCTNodePointer::get_policy`). -/
def UCTNodePointer.get_policy : UCTNodePointer → ℚ
  | .deflated _ policy => policy
  | .inflated data _ => data.m_policy

/-- Modelled from the spec: the move of a child slot (`UCTNodePointer::get_move`). -/
def UCTNodePointer.get_move : UCTNodePointer → Int
  | .deflated vertex _ => vertex
  | .inflated data _ => data.m_move

/-- A candidate move, `Network::PolicyVertexPair = std::pair<float, int>`. -/
abbrev PolicyVertexPair := ℚ × Int

/-- Modelled from the spec: the output of the evaluator (`Network::Netresult`),
a policy value per board point, the PASS policy, the winrate of the side to
move and the variance. -/
structure Netresult where
  policy : Nat → ℚ
  policy_pass : ℚ
  winrate : ℚ
  variance : ℚ

/-- Modelled from the spec: what `create_children` reads from the game state
(`get_passes`, `board.get_to_move`, `board.get_vertex`, `is_move_legal`,
`final_score`). -/
structure GameState where
  passes : Int
  to_move : Int
  get_vertex : Nat → Nat → Int
  is_move_legal : Int → Int → Bool
  final_score : ℚ

/-- Modelled from the spec: the evaluator, `Network::get_output`. -/
structure Network where
  get_output : GameState → Netresult

/-- A checked `assert`. -/
def assert (c : Prop) [Decidable c] : Option Unit :=
  if c then some () else none

/-! ## Binary floating point -/

/-- The integer nearest to `q`, the even one of two that are equally near: the
rounding of IEEE 754 arithmetic. -/
def round_half_even (q : ℚ) : Int :=
  let f := ⌊q⌋
  if q - f < 1 / 2 then f
  else if q - f > 1 / 2 then f + 1
  else if f % 2 = 0 then f else f + 1

/-- The exponent `e` with `2 ^ e ≤ q < 2 ^ (e + 1)` of a value `q ≥ 1`, found by
halving at most `fuel` times. -/
def exponent_up : Nat → ℚ → Int
  | 0, _ => 0
  | fuel + 1, q => if q < 2 then 0 else exponent_up fuel (q / 2) + 1

/-- The exponent `e` with `2 ^ e ≤ q < 2 ^ (e + 1)` of a value `0 < q < 2`, found
by doubling at most `fuel` times. -/
def exponent_down : Nat → ℚ → Int
  | 0, _ => 0
  | fuel + 1, q => if 1 ≤ q then 0 else exponent_down fuel (q * 2) - 1

/-- The binary exponent of a value: `2 ^ e ≤ |q| < 2 ^ (e + 1)` when `q ≠ 0`.
The numerator and the denominator bound the number of steps. -/
def binary_exponent (q : ℚ) : Int :=
  if 1 ≤ |q| then exponent_up q.num.natAbs |q| else exponent_down q.den |q|

/-- The value nearest to `q` in the binary format with `p` significant bits and
least exponent `emin` (subnormal values included), ties to the even
significand. Overflow to infinity is not modelled: the exponent has no upper
bound. -/
def round_to_format (p : Nat) (emin : Int) (q : ℚ) : ℚ :=
  let e := max (binary_exponent q) emin
  let ulp : ℚ := 2 ^ (e - (p - 1))
  round_half_even (q / ulp) * ulp

/-- The `float` (IEEE 754 binary32) nearest to `q`. -/
def to_float (q : ℚ) : ℚ := round_to_format 24 (-126) q

/-- The `double` (IEEE 754 binary64) nearest to `q`. -/
def to_double (q : ℚ) : ℚ := round_to_format 53 (-1022) q

/-- The arithmetic of a call: `flt` is applied to the result of every operation
the source evaluates in `float`, `dbl` to the result of every operation it
evaluates in `double`. -/
structure Arith where
  flt : ℚ → ℚ
  dbl : ℚ → ℚ

/-- Exact arithmetic: no operation rounds. -/
def Arith.exact : Arith := { flt := id, dbl := id }

/-- The arithmetic of the compiled program: every operation is rounded to the
type the source gives it (no excess precision, no fused multiply-add). -/
def Arith.ieee : Arith := { flt := to_float, dbl := to_double }

/-- The `float` literal `0.8f`, the binary32 value nearest to 4/5. -/
def literal_0_8f : ℚ := 13421773 / 16777216

/-! ## Expansion handshake -/

/-- Transcription of `UCTNode::acquire_expanding`: a compare-and-swap from INITIAL to EXPANDING. -/
def UCTNode.acquire_expanding (n : UCTNode) : Bool × UCTNode :=
  let expected := ExpandState.INITIAL
  let newval := ExpandState.EXPANDING
  if n.m_expand_state = expected then
    (true, { n with m_expand_state := newval })
  else
    (false, n)

/-- Transcription of `UCTNode::expand_done`. -/
def UCTNode.expand_done (n : UCTNode) : Option UCTNode :=
  let v := n.m_expand_state
  let n1 := { n with m_expand_state := ExpandState.EXPANDED }
  (assert (v = ExpandState.EXPANDING)).bind fun _ => some n1

/-- Transcription of `UCTNode::expand_cancel`. -/
def UCTNode.expand_cancel (n : UCTNode) : Option UCTNode :=
  let v := n.m_expand_state
  let n1 := { n with m_expand_state := ExpandState.INITIAL }
  (assert (v = ExpandState.EXPANDING)).bind fun _ => some n1

/-- Transcription of `UCTNode::expandable`, with the debug assertion. -/
def UCTNode.expandable (n : UCTNode) (min_psa_ratio : ℚ) : Option Bool :=
  (if n.m_min_psa_ratio_children = 0 then
      assert (n.m_expand_state ≠ ExpandState.INITIAL)
    else some ()).bind fun _ =>
  some (decide (min_psa_ratio < n.m_min_psa_ratio_children))

/-- A call of the handshake interface. -/
inductive ExpandOp where
  | acquire
  | done
  | cancel
deriving DecidableEq, Repr

/-- One call applied to a node; `none` when the call's assertion fails. -/
def ExpandOp.apply : ExpandOp → UCTNode → Option UCTNode
  | .acquire, n => some n.acquire_expanding.2
  | .done, n => n.expand_done
  | .cancel, n => n.expand_cancel

/-- The values `m_expand_state` takes along a sequence of calls, the starting
value first; `none` when some assertion fails. -/
def expand_trace : List ExpandOp → UCTNode → Option (List ExpandState)
  | [], n => some [n.m_expand_state]
  | op :: ops, n =>
    (op.apply n).bind fun n1 => (expand_trace ops n1).map fun t => n.m_expand_state :: t

/-- The successive distinct values of a trace: repeated neighbours are merged. -/
def distinct_values (t : List ExpandState) : List ExpandState :=
  t.destutter (fun a b => a ≠ b)

/-- The three traces the specification lists. -/
def spec_traces : List (List ExpandState) :=
  [[.INITIAL], [.INITIAL, .EXPANDING, .EXPANDED], [.INITIAL, .EXPANDING, .INITIAL]]

/-- The transitions the handshake makes. -/
def expand_transition : ExpandState → ExpandState → Prop
  | .INITIAL, .EXPANDING => True
  | .EXPANDING, .EXPANDED => True
  | .EXPANDING, .INITIAL => True
  | _, _ => False

/-! ## Linking children -/

/-- The order `operator<` of `std::pair<float, int>`: by prior, then by vertex. -/
def pair_lt (a b : PolicyVertexPair) : Prop :=
  a.1 < b.1 ∨ (¬ b.1 < a.1 ∧ a.2 < b.2)

instance (a b : PolicyVertexPair) : Decidable (pair_lt a b) := by
  unfold pair_lt; infer_instance

/-- The order a sort by `lt` establishes between an earlier and a later element. -/
def not_after (a b : PolicyVertexPair) : Prop := ¬ pair_lt b a

instance (a b : PolicyVertexPair) : Decidable (not_after a b) := by
  unfold not_after; infer_instance

/-- The call `std::stable_sort(first, last)`: a stable ascending sort by `operator<`. -/
def stable_sort (l : List PolicyVertexPair) : List PolicyVertexPair :=
  l.insertionSort not_after

/-- The call `std::stable_sort(rbegin(nodelist), rend(nodelist))`: the reversed
view of the vector is sorted ascending. -/
def stable_sort_reversed (nodelist : List PolicyVertexPair) : List PolicyVertexPair :=
  (stable_sort nodelist.reverse).reverse

/-- The largest prior of a candidate list: `m` is the prior of some candidate and
no candidate has a larger one. -/
def is_max_prior (nodelist : List PolicyVertexPair) (m : ℚ) : Prop :=
  (∃ p ∈ nodelist, p.1 = m) ∧ ∀ p ∈ nodelist, p.1 ≤ m

/-- The candidates of `l` whose prior `p` satisfies `new_min ≤ p < old_min`, in the order of `l`. -/
def in_window (new_min old_min : ℚ) (l : List PolicyVertexPair) : List PolicyVertexPair :=
  l.filter fun p => decide (new_min ≤ p.1 ∧ p.1 < old_min)

/-- Candidates of equal prior keep the relative order of the input: whenever `a`
comes before `b` among the children and their priors are equal, `a` comes
before `b` in the input. -/
def ties_in_input_order (input children : List PolicyVertexPair) : Prop :=
  ∀ a b : PolicyVertexPair, a.1 = b.1 → List.Sublist [a, b] children → List.Sublist [a, b] input

/-- The slot `emplace_back(node.second, node.first)` constructs. -/
def new_child (node : PolicyVertexPair) : UCTNodePointer :=
  UCTNodePointer.deflated node.2 node.1

/-- The pair `(prior, vertex)` a child slot holds. -/
def UCTNodePointer.pair (c : UCTNodePointer) : PolicyVertexPair :=
  (c.get_policy, c.get_move)

/-- State of the loop of `link_nodelist`: children, node count, `skipped_children`. -/
abbrev LinkLoop := List UCTNodePointer × Int × Bool

/-- One iteration of the loop of `link_nodelist`. -/
def link_step (new_min_psa old_min_psa : ℚ) (st : LinkLoop) (node : PolicyVertexPair) :
    LinkLoop :=
  if node.1 < new_min_psa then
    (st.1, st.2.1, true)
  else if node.1 < old_min_psa then
    (st.1 ++ [new_child node], st.2.1 + 1, st.2.2)
  else
    st

/-- Result of `link_nodelist`: the node, the counter and the vector it sorted in place. -/
structure LinkResult where
  node : UCTNode
  nodecount : Int
  nodelist : List PolicyVertexPair

/-- Transcription of `UCTNode::link_nodelist`. The `reserve` calls change no value. -/
def UCTNode.link_nodelist (n : UCTNode) (nodecount : Int) (nodelist : List PolicyVertexPair)
    (min_psa_ratio : ℚ) : Option LinkResult :=
  (assert (min_psa_ratio < n.m_min_psa_ratio_children)).bind fun _ =>
  if nodelist.isEmpty then
    some { node := n, nodecount := nodecount, nodelist := nodelist }
  else
    let sorted := stable_sort_reversed nodelist
    let max_psa := (sorted.headD (0, 0)).1
    let old_min_psa := max_psa * n.m_min_psa_ratio_children
    let new_min_psa := max_psa * min_psa_ratio
    let st := sorted.foldl (link_step new_min_psa old_min_psa) (n.m_children, nodecount, false)
    some { node := { n with m_children := st.1,
                            m_min_psa_ratio_children := if st.2.2 then min_psa_ratio else 0 },
           nodecount := st.2.1,
           nodelist := sorted }

/-! ## Creating children -/

/-- State of the loop over the board points: the candidates and `legal_sum`. -/
abbrev LegalLoop := List PolicyVertexPair × ℚ

/-- One iteration of the loop over the board points in `create_children`. -/
def legal_step (cfg : Config) (state : GameState) (raw_netlist : Netresult)
    (st : LegalLoop) (i : Nat) : LegalLoop :=
  let x := i % cfg.BOARD_SIZE
  let y := i / cfg.BOARD_SIZE
  let vertex := state.get_vertex x y
  if state.is_move_legal state.to_move vertex then
    (st.1 ++ [(raw_netlist.policy i, vertex)], st.2 + raw_netlist.policy i)
  else
    st

/-- The candidates and `legal_sum` after the loop over the board points. -/
def legal_moves (cfg : Config) (state : GameState) (raw_netlist : Netresult) : LegalLoop :=
  (List.range cfg.NUM_INTERSECTIONS).foldl (legal_step cfg state raw_netlist) ([], 0)

/-- The local `relative_score` of `create_children`: the final score seen from the
side to move. -/
def relative_score (cfg : Config) (state : GameState) : ℚ :=
  (if state.to_move = cfg.BLACK then 1 else -1) * state.final_score

/-- The value of `allow_pass` when the PASS candidate is about to be appended;
`num_legal` is `nodelist.size()` after the loop over the board points. -/
def allow_pass (cfg : Config) (state : GameState) (stm_eval : ℚ) (num_legal : Nat) : Bool :=
  let allow_pass := cfg.cfg_dumbpass
  let allow_pass := if num_legal ≤ max 5 cfg.BOARD_SIZE then true else allow_pass
  if !allow_pass && decide (stm_eval > literal_0_8f) then
    if relative_score cfg state ≥ 0 then true else allow_pass
  else
    allow_pass

/-- The final score favours the side to move: a positive score favours Black, a
negative one White. -/
def favors_side_to_move (cfg : Config) (state : GameState) : Prop :=
  0 < relative_score cfg state

/-- The condition the specification gives for admitting PASS. -/
def spec_pass_condition (cfg : Config) (state : GameState) (winrate : ℚ) (num_legal : Nat) :
    Prop :=
  cfg.cfg_dumbpass = true ∨ num_legal ≤ max 5 cfg.BOARD_SIZE ∨
    (winrate > 4 / 5 ∧ favors_side_to_move cfg state)

/-- The candidate list handed to `link_nodelist`: legal moves, PASS if allowed,
priors divided by `legal_sum` or set uniform. -/
def candidate_list (cfg : Config) (state : GameState) (raw_netlist : Netresult) :
    List PolicyVertexPair :=
  let st := legal_moves cfg state raw_netlist
  let st : LegalLoop :=
    if allow_pass cfg state raw_netlist.winrate st.1.length then
      (st.1 ++ [(raw_netlist.policy_pass, cfg.PASS)], st.2 + raw_netlist.policy_pass)
    else st
  let nodelist := st.1
  let legal_sum := st.2
  if legal_sum > FLT_MIN then
    nodelist.map fun node => (node.1 / legal_sum, node.2)
  else
    let uniform_prob := 1 / (nodelist.length : ℚ)
    nodelist.map fun node => (uniform_prob, node.2)

/-- Result of `create_children`: the return value, the node, and the three
reference parameters `nodecount`, `eval`, `variance`. -/
structure CreateResult where
  ret : Bool
  node : UCTNode
  nodecount : Int
  eval : ℚ
  variance : ℚ

/-- Transcription of `UCTNode::create_children`. -/
def UCTNode.create_children (cfg : Config) (network : Network) (n : UCTNode) (nodecount : Int)
    (state : GameState) (eval variance : ℚ) (min_psa_ratio : ℚ) : Option CreateResult :=
  let fail (n : UCTNode) : CreateResult :=
    { ret := false, node := n, nodecount := nodecount, eval := eval, variance := variance }
  if state.passes ≥ 2 then
    some (fail n)
  else
    let acq := n.acquire_expanding
    if !acq.1 then
      some (fail acq.2)
    else
      let n := acq.2
      (n.expandable min_psa_ratio).bind fun can_expand =>
      if !can_expand then
        n.expand_done.map fail
      else
        let raw_netlist := network.get_output state
        let stm_eval := raw_netlist.winrate
        let to_move := state.to_move
        let n : UCTNode :=
          { n with m_net_variance := raw_netlist.variance,
                   m_net_eval := if to_move = cfg.WHITE then 1 - stm_eval else stm_eval }
        let eval := n.m_net_eval
        let variance := n.m_net_variance
        let nodelist := candidate_list cfg state raw_netlist
        (n.link_nodelist nodecount nodelist min_psa_ratio).bind fun linked =>
        linked.node.expand_done.map fun n =>
          { ret := true, node := n, nodecount := linked.nodecount,
            eval := eval, variance := variance }

/-- Sum of the priors of a list of child slots. -/
def prior_sum (children : List UCTNodePointer) : ℚ :=
  (children.map UCTNodePointer.get_policy).sum

/-! ## A 3×3 position -/

/-- A 3×3 board without dumb-pass mode; Black is 0, White is 1 and PASS is -1. -/
def example_config : Config :=
  { BOARD_SIZE := 3, cfg_dumbpass := false, BLACK := 0, WHITE := 1, PASS := -1 }

/-- An empty 3×3 position, Black to move, every point legal, with the given
final score. -/
def example_state (final_score : ℚ) : GameState :=
  { passes := 0, to_move := 0, get_vertex := fun x y => (y + 1) * 5 + x + 1,
    is_move_legal := fun _ _ => true, final_score := final_score }

/-- An evaluator that answers every position with the given output. -/
def example_network (policy : Nat → ℚ) (policy_pass winrate : ℚ) : Network :=
  { get_output := fun _ =>
      { policy := policy, policy_pass := policy_pass, winrate := winrate, variance := 1 / 100 } }

/-! ## Back-propagation -/

/-- Transcription of `UCTNode::accumulate_eval`. -/
def UCTNode.accumulate_eval (n : UCTNode) (eval : ℚ) : UCTNode :=
  { n with m_blackevals := n.m_blackevals + eval }

/-- Transcription of `UCTNode::update`. -/
def UCTNode.update (n : UCTNode) (eval : ℚ) : UCTNode :=
  let old_eval := n.m_blackevals
  let old_visits := n.m_visits
  let old_delta := if old_visits > 0 then eval - old_eval / old_visits else 0
  let n := { n with m_visits := n.m_visits + 1 }
  let n := n.accumulate_eval eval
  let new_delta := eval - (old_eval + eval) / (old_visits + 1)
  let delta := old_delta * new_delta
  { n with m_squared_eval_diff := n.m_squared_eval_diff + delta }

/-- Serial application of `update` to the evaluations of a list, first to last. -/
def UCTNode.update_all (n : UCTNode) (evals : List ℚ) : UCTNode :=
  evals.foldl UCTNode.update n

/-! ## Evaluation -/

/-- Transcription of `UCTNode::get_visits`. -/
def UCTNode.get_visits (n : UCTNode) : Int := n.m_visits

/-- Transcription of `UCTNode::get_blackevals`. -/
def UCTNode.get_blackevals (n : UCTNode) : ℚ := n.m_blackevals

/-- Transcription of `UCTNode::get_eval_variance`. -/
def UCTNode.get_eval_variance (n : UCTNode) (default_var : ℚ) : ℚ :=
  if n.m_visits > 1 then n.m_squared_eval_diff / (n.m_visits - 1) else default_var

/-- The arithmetic mean of a list of evaluations. -/
def arithmetic_mean (l : List ℚ) : ℚ := l.sum / (l.length : ℚ)

/-- The unbiased sample variance: the squared deviations from the mean, summed
and divided by `n - 1`. -/
def sample_variance (l : List ℚ) : ℚ :=
  (l.map fun v => (v - arithmetic_mean l) ^ 2).sum / ((l.length : ℚ) - 1)

/-- The sum of the squares of a list. -/
def sum_sq (l : List ℚ) : ℚ := (l.map fun v => v ^ 2).sum

/-- Transcription of `UCTNode::get_raw_eval`; `none` is the failed
`assert(visits > 0)`. -/
def UCTNode.get_raw_eval (cfg : Config) (n : UCTNode) (tomove : Int) (virtual_loss : Int) :
    Option ℚ :=
  let visits := n.get_visits + virtual_loss
  (assert (visits > 0)).bind fun _ =>
  let blackeval := n.get_blackevals
  let blackeval := if tomove = cfg.WHITE then blackeval + (virtual_loss : ℚ) else blackeval
  let eval := blackeval / (visits : ℚ)
  let eval := if tomove = cfg.WHITE then 1 - eval else eval
  some eval

/-- Transcription of `UCTNode::get_eval`. -/
def UCTNode.get_eval (cfg : Config) (n : UCTNode) (tomove : Int) : Option ℚ :=
  n.get_raw_eval cfg tomove n.m_virtual_loss

/-- Transcription of `UCTNode::get_net_eval` in the arithmetic `ar`:
`1.0f - m_net_eval` is a `float` operation. -/
def UCTNode.get_net_eval (cfg : Config) (ar : Arith) (n : UCTNode) (tomove : Int) : ℚ :=
  if tomove = cfg.WHITE then ar.flt (1 - n.m_net_eval) else n.m_net_eval

/-- Transcription of `UCTNode::get_net_variance`. -/
def UCTNode.get_net_variance (n : UCTNode) : ℚ := n.m_net_variance

/-- The literal `.000000001` below which a variance is not used. -/
def MIN_VARIANCE : ℚ := 1 / 10 ^ 9

/-- Transcription of `UCTNode::get_net_beta_param` in the arithmetic `ar`.
`success`, `failure` and the values of `get_net_eval` are `float`, so
`1.0f - get_net_eval(tomove)` and the inner product are `float` operations.
`variance` is declared `auto` and takes the type `double` of the literal
`.000000001`: the quotient, the subtraction of `1.0f`, the outer product and
the sum of `+=` are `double` operations, and the sum is converted to `float`
when it is stored. -/
def UCTNode.get_net_beta_param (cfg : Config) (ar : Arith) (n : UCTNode) (tomove : Int) :
    ℚ × ℚ :=
  let success : ℚ := 1
  let failure : ℚ := 1
  let variance := if n.get_net_variance > ar.dbl MIN_VARIANCE then n.get_net_variance
    else ar.dbl MIN_VARIANCE
  let success := ar.flt (ar.dbl (success + ar.dbl (n.get_net_eval cfg ar tomove *
    ar.dbl (ar.dbl (ar.flt (n.get_net_eval cfg ar tomove *
      ar.flt (1 - n.get_net_eval cfg ar tomove)) / variance) - 1))))
  let failure := ar.flt (ar.dbl (failure + ar.dbl (ar.flt (1 - n.get_net_eval cfg ar tomove) *
    ar.dbl (ar.dbl (ar.flt (n.get_net_eval cfg ar tomove *
      ar.flt (1 - n.get_net_eval cfg ar tomove)) / variance) - 1))))
  (success, failure)

/-- The function `pack_floats`: two floats in one 64-bit word. The word is kept
as the pair it holds, and `none` is the word 0, which is what packing 0.0 and
0.0 gives. -/
def pack_floats (lo hi : ℚ) : Option (ℚ × ℚ) :=
  if lo = 0 ∧ hi = 0 then none else some (lo, hi)

/-- The function `unpack_floats`. -/
def unpack_floats : Option (ℚ × ℚ) → ℚ × ℚ
  | some d => d
  | none => (0, 0)

/-- Transcription of `UCTNode::set_distribution`. -/
def UCTNode.set_distribution (n : UCTNode) (mean variance : ℚ) : UCTNode :=
  { n with m_distribution := pack_floats mean variance }

/-- Transcription of `UCTNode::get_distribution`. -/
def UCTNode.get_distribution (cfg : Config) (n : UCTNode) (tomove : Int) : ℚ × ℚ :=
  let d := if n.m_distribution.isSome then unpack_floats n.m_distribution
    else (n.m_net_eval, n.m_net_variance)
  let mean := d.1
  let variance := d.2
  if tomove = cfg.WHITE then (1 - mean, variance) else (mean, variance)

/-- Transcription of `UCTNode::has_distribution`. -/
def UCTNode.has_distribution (n : UCTNode) : Bool := n.m_distribution.isSome

/-- Transcription of `UCTNode::get_beta_param`. -/
def UCTNode.get_beta_param (cfg : Config) (n : UCTNode) (tomove : Int) : ℚ × ℚ :=
  let success : ℚ := 1
  let failure : ℚ := 1
  let d := n.get_distribution cfg tomove
  let mean := d.1
  let variance := d.2
  let variance := if variance < MIN_VARIANCE then MIN_VARIANCE else variance
  let success := success + mean * ((mean * (1 - mean)) / variance - 1)
  let failure := failure + (1 - mean) * ((mean * (1 - mean)) / variance - 1)
  (success, failure)

/-- Transcription of `UCTNode::get_distribution` in the arithmetic `ar`:
`1.0f - mean` is a `float` operation. -/
def UCTNode.get_distribution_in (cfg : Config) (ar : Arith) (n : UCTNode) (tomove : Int) :
    ℚ × ℚ :=
  let d := if n.m_distribution.isSome then unpack_floats n.m_distribution
    else (n.m_net_eval, n.m_net_variance)
  let mean := d.1
  let variance := d.2
  if tomove = cfg.WHITE then (ar.flt (1 - mean), variance) else (mean, variance)

/-- Transcription of `UCTNode::get_beta_param` in the arithmetic `ar`. `mean`
and `variance` are declared `float`, so every operation of the two formulas is
a `float` operation; the test `variance < .000000001` compares with the
`double` literal, and the assignment stores the literal converted to `float`. -/
def UCTNode.get_beta_param_in (cfg : Config) (ar : Arith) (n : UCTNode) (tomove : Int) :
    ℚ × ℚ :=
  let success : ℚ := 1
  let failure : ℚ := 1
  let d := n.get_distribution_in cfg ar tomove
  let mean := d.1
  let variance := d.2
  let variance := if variance < ar.dbl MIN_VARIANCE then ar.flt (ar.dbl MIN_VARIANCE)
    else variance
  let success := ar.flt (success + ar.flt (mean *
    ar.flt (ar.flt (ar.flt (mean * ar.flt (1 - mean)) / variance) - 1)))
  let failure := ar.flt (failure + ar.flt (ar.flt (1 - mean) *
    ar.flt (ar.flt (ar.flt (mean * ar.flt (1 - mean)) / variance) - 1)))
  (success, failure)

/-- A node with the given visits, evaluation sum and virtual loss. -/
def example_node (visits : Int) (blackevals : ℚ) (virtual_loss : Int) : UCTNode :=
  { m_move := 0, m_policy := 1, m_visits := visits, m_blackevals := blackevals,
    m_virtual_loss := virtual_loss }

/-- A node with the given evaluator output and no distribution override. -/
def example_net_node (net_eval net_variance : ℚ) : UCTNode :=
  { m_move := 0, m_policy := 1, m_net_eval := net_eval, m_net_variance := net_variance }

/-- Successive calls of `link_nodelist` on one candidate vector, one threshold
after the other; each call leaves the vector sorted for the next. `none` when
the assertion of some call fails. -/
def link_all (n : UCTNode) (nodecount : Int) (nodelist : List PolicyVertexPair) :
    List ℚ → Option LinkResult
  | [] => some { node := n, nodecount := nodecount, nodelist := nodelist }
  | r :: rs =>
    (n.link_nodelist nodecount nodelist r).bind fun res =>
      link_all res.node res.nodecount res.nodelist rs

/-- What the children of a node owe to the sorted candidates `sorted` with
largest prior `m` for the next call of `link_nodelist` to keep them ordered:
they are in non-increasing prior order, there are none when `m` is negative,
and no candidate below the cut-off the node holds has a larger prior than a
child. -/
def link_invariant (sorted : List PolicyVertexPair) (m : ℚ) (n : UCTNode) : Prop :=
  n.m_children.Pairwise (fun a b => b.get_policy ≤ a.get_policy) ∧
  (m < 0 → n.m_children = []) ∧
  ∀ c ∈ n.m_children, ∀ p ∈ sorted, p.1 < m * n.m_min_psa_ratio_children → p.1 ≤ c.get_policy

/-! ## Status and child slots -/

/-- Transcription of `UCTNode::invalidate`. -/
def UCTNode.invalidate (n : UCTNode) : UCTNode :=
  { n with m_status := Status.INVALID }

/-- Transcription of `UCTNode::valid`. -/
def UCTNode.valid (n : UCTNode) : Bool := decide (n.m_status ≠ Status.INVALID)

/-- Transcription of `UCTNode::active`. -/
def UCTNode.active (n : UCTNode) : Bool := decide (n.m_status = Status.ACTIVE)

/-- Transcription of `UCTNode::set_active`. -/
def UCTNode.set_active (n : UCTNode) (active : Bool) : UCTNode :=
  if n.valid then { n with m_status := if active then Status.ACTIVE else Status.PRUNED }
  else n

/-- Transcription of `UCTNode::get_policy`. -/
def UCTNode.get_policy (n : UCTNode) : ℚ := n.m_policy

/-- Modelled from the spec: whether a child slot holds a constructed node
(`UCTNodePointer::is_inflated`). -/
def UCTNodePointer.is_inflated : UCTNodePointer → Bool
  | .deflated _ _ => false
  | .inflated _ _ => true

/-- Modelled from the spec: the node of an inflated slot (`UCTNodePointer::get`
and `operator->`); `none` is the failed assertion on a deflated slot. -/
def UCTNodePointer.get : UCTNodePointer → Option UCTNode
  | .deflated _ _ => none
  | .inflated data children => some { toNodeData := data, m_children := children }

/-- Modelled from the spec: the one-time inflation of a slot
(`UCTNodePointer::inflate`): a deflated slot becomes a freshly constructed node
with its move and prior, an inflated slot stays as it is. -/
def UCTNodePointer.inflate : UCTNodePointer → UCTNodePointer
  | .deflated vertex policy => .inflated (UCTNode.new vertex policy).toNodeData []
  | .inflated data children => .inflated data children

/-- Modelled from the spec: the visits of a child slot
(`UCTNodePointer::get_visits`), 0 for a deflated slot. -/
def UCTNodePointer.get_visits : UCTNodePointer → Int
  | .deflated _ _ => 0
  | .inflated data _ => data.m_visits

/-- Modelled from the spec: `UCTNodePointer::valid`; a deflated slot is valid. -/
def UCTNodePointer.valid : UCTNodePointer → Bool
  | .deflated _ _ => true
  | .inflated data _ => decide (data.m_status ≠ Status.INVALID)

/-- Modelled from the spec: `UCTNodePointer::active`; a deflated slot is active. -/
def UCTNodePointer.active : UCTNodePointer → Bool
  | .deflated _ _ => true
  | .inflated data _ => decide (data.m_status = Status.ACTIVE)

/-- Modelled from the spec: `UCTNodePointer::get_eval`, the evaluation of the
node of an inflated slot. -/
def UCTNodePointer.get_eval (cfg : Config) (c : UCTNodePointer) (tomove : Int) : Option ℚ :=
  c.get.bind fun n => n.get_eval cfg tomove

/-- Modelled from the spec: `UCTNodePointer::get_beta_param`, the Beta
parameters of the node of an inflated slot. -/
def UCTNodePointer.get_beta_param (cfg : Config) (c : UCTNodePointer) (tomove : Int) :
    Option (ℚ × ℚ) :=
  c.get.map fun n => n.get_beta_param cfg tomove

/-- The test `child.is_inflated() && child->m_expand_state.load() ==
ExpandState::EXPANDING` of `uct_select_child`. -/
def UCTNodePointer.is_expanding : UCTNodePointer → Bool
  | .deflated _ _ => false
  | .inflated data _ => decide (data.m_expand_state = ExpandState.EXPANDING)

/-- Transcription of `UCTNode::wait_expanded` under serial execution: `none`
when the call does not return (the node stays EXPANDING for ever) or its
assertion fails (the node is INITIAL). -/
def UCTNode.wait_expanded (n : UCTNode) : Option Unit :=
  if n.m_expand_state = ExpandState.EXPANDING then none
  else assert (n.m_expand_state = ExpandState.EXPANDED)

/-! ## The best root child -/

/-- The call operator of `NodeComp`; `none` is a failed assertion of `get_eval`.
The member `m_lcb_min_visits` is read only by code that is commented out. -/
def NodeComp (cfg : Config) (m_color : Int) (_m_lcb_min_visits : ℚ) (a b : UCTNodePointer) :
    Option Bool :=
  let a_visit := a.get_visits
  let b_visit := b.get_visits
  if a_visit ≠ b_visit then
    some (decide (a_visit < b_visit))
  else if a_visit = 0 then
    some (decide (a.get_policy < b.get_policy))
  else
    (a.get_eval cfg m_color).bind fun a_eval =>
    (b.get_eval cfg m_color).bind fun b_eval =>
    some (decide (a_eval < b_eval))

/-- The loop of `std::max_element`: `largest` is the index of the largest
element so far, `lv` the element, `i` the index of the next element. -/
def max_element_loop {α : Type} (comp : α → α → Option Bool) :
    List α → Nat → Nat → α → Option Nat
  | [], _, largest, _ => some largest
  | x :: xs, i, largest, lv =>
    (comp lv x).bind fun c =>
      if c then max_element_loop comp xs (i + 1) i x
      else max_element_loop comp xs (i + 1) largest lv

/-- The call `std::max_element(first, last, comp)`: the index of the first
largest element, `last` (the length) for an empty range. -/
def max_element {α : Type} (comp : α → α → Option Bool) : List α → Option Nat
  | [] => some 0
  | a :: t => max_element_loop comp t 1 0 a

/-- Result of `get_best_root_child`: the node with the chosen slot inflated,
the index of the slot and the child returned. -/
structure BestChildResult where
  node : UCTNode
  index : Nat
  child : UCTNode

/-- Transcription of `UCTNode::get_best_root_child`; `cfg_lcb_min_visit_ratio`
is the option of `GTP.h`. -/
def UCTNode.get_best_root_child (cfg : Config) (cfg_lcb_min_visit_ratio : ℚ) (n : UCTNode)
    (color : Int) : Option BestChildResult :=
  n.wait_expanded.bind fun _ =>
  (assert (¬ n.m_children.isEmpty)).bind fun _ =>
  let max_visits := n.m_children.foldl (fun max_visits node => max max_visits node.get_visits) 0
  (max_element (NodeComp cfg color (cfg_lcb_min_visit_ratio * max_visits)) n.m_children).bind
    fun ret =>
  (n.m_children[ret]?).bind fun slot =>
  let slot := slot.inflate
  slot.get.map fun child =>
    { node := { n with m_children := n.m_children.set ret slot }, index := ret, child := child }

/-! ## Selection -/

/-- The lowest finite `double`, `std::numeric_limits<double>::lowest()`. -/
def DBL_LOWEST : ℚ := -(2 ^ 1024 - 2 ^ 971)

/-- Modelled from the spec: the random source of one call of
`uct_select_child`. `uniform` is the value the uniform distribution on [0, 1)
returns if it is drawn, and `beta k success failure` the value of the draw
number `k` from the Beta distribution with the given parameters. -/
structure Rng where
  uniform : ℚ
  uniform_range : 0 ≤ uniform ∧ uniform < 1
  beta : Nat → ℚ → ℚ → ℚ

/-- State of the first loop of `uct_select_child`; `best` is the index of the slot. -/
structure ExploreLoop where
  max_policy : ℚ
  policy_explored : ℚ
  num_unexplored_children : Int
  best : Option Nat

/-- One iteration of the first loop of `uct_select_child` on the child at index `ic.1`. -/
def explore_step (st : ExploreLoop) (ic : Nat × UCTNodePointer) : ExploreLoop :=
  let child := ic.2
  if !child.valid then
    st
  else
    let st := { st with max_policy := max st.max_policy child.get_policy }
    if child.get_visits > 0 then
      { st with policy_explored := st.policy_explored + child.get_policy }
    else
      let st := { st with num_unexplored_children := st.num_unexplored_children + 1 }
      if st.best.isSome || child.is_expanding then
        st
      else
        { st with best := some ic.1 }

/-- State of the second loop of `uct_select_child`; `draws` counts the Beta samples. -/
structure SampleLoop where
  best : Option Nat
  best_value : ℚ
  draws : Nat

/-- One iteration of the second loop of `uct_select_child`; `none` is a failed assertion. -/
def sample_step (cfg : Config) (rng : Rng) (color : Int) (st : SampleLoop)
    (ic : Nat × UCTNodePointer) : Option SampleLoop :=
  let child := ic.2
  if !child.active || decide (child.get_visits = 0) then
    some st
  else if child.is_expanding then
    if (-1 : ℚ) > st.best_value then
      some { st with best_value := -1, best := some ic.1 }
    else
      some st
  else
    (child.get_beta_param cfg color).bind fun param =>
    let value := rng.beta st.draws param.1 param.2
    let st := { st with draws := st.draws + 1 }
    (assert (value > DBL_LOWEST)).bind fun _ =>
    if value > st.best_value then
      some { st with best_value := value, best := some ic.1 }
    else
      some st

/-- Result of `uct_select_child`: the node with `m_policy_explored` stored and
the chosen slot inflated, the index of the slot, the child returned and the
number of Beta samples drawn. -/
structure SelectResult where
  node : UCTNode
  index : Nat
  child : UCTNode
  beta_draws : Nat

/-- Transcription of `UCTNode::uct_select_child`. -/
def UCTNode.uct_select_child (cfg : Config) (rng : Rng) (n : UCTNode) (color : Int)
    (_is_root : Bool) : Option SelectResult :=
  n.wait_expanded.bind fun _ =>
  let st := n.m_children.enum.foldl explore_step
    { max_policy := 0, policy_explored := 0, num_unexplored_children := 0, best := none }
  let policy_explored := if st.num_unexplored_children = 0 then 1 else st.policy_explored
  let sampled : Option (Option Nat × ℚ × Nat) :=
    (n.m_children.enum.foldlM (sample_step cfg rng color)
      { best := st.best, best_value := DBL_LOWEST, draws := 0 }).map
      fun s => (s.best, policy_explored, s.draws)
  let picked : Option (Option Nat × ℚ × Nat) :=
    match st.best with
    | none => sampled
    | some best =>
      if rng.uniform < policy_explored then sampled
      else (n.m_children[best]?).map fun slot => (some best, policy_explored + slot.get_policy, 0)
  picked.bind fun p =>
  let n := { n with m_policy_explored := p.2.1 }
  (assert (p.1 ≠ none)).bind fun _ =>
  p.1.bind fun best =>
  (n.m_children[best]?).bind fun slot =>
  let slot := slot.inflate
  slot.get.map fun child =>
    { node := { n with m_children := n.m_children.set best slot }, index := best,
      child := child, beta_draws := p.2.2 }

/-- The order `NodeComp` decides between two slots on which `get_eval` is
defined when it is read: by visits, then by prior when there are no visits and
by evaluation otherwise. -/
def node_lt (cfg : Config) (color : Int) (a b : UCTNodePointer) : Prop :=
  a.get_visits < b.get_visits ∨
    (a.get_visits = b.get_visits ∧
      if a.get_visits = 0 then a.get_policy < b.get_policy
      else (a.get_eval cfg color).getD 0 < (b.get_eval cfg color).getD 0)

instance (cfg : Config) (color : Int) (a b : UCTNodePointer) :
    Decidable (node_lt cfg color a b) := by
  unfold node_lt; infer_instance

/-- An inflated slot with the given move, prior, visits and evaluation sum, and
the evaluator output (1/2, 1/20). -/
def example_child (move : Int) (policy : ℚ) (visits : Int) (blackevals : ℚ) : UCTNodePointer :=
  UCTNodePointer.inflated
    { m_move := move, m_policy := policy, m_visits := visits, m_blackevals := blackevals,
      m_net_eval := 1 / 2, m_net_variance := 1 / 20 } []

/-- An expanded node with the given children. -/
def example_parent (children : List UCTNodePointer) : UCTNode :=
  { m_move := 0, m_policy := 1, m_expand_state := ExpandState.EXPANDED, m_children := children }

/-- A random source whose uniform draw is 1/2 and whose Beta draws return the
mean `success / (success + failure)`. -/
def example_rng : Rng :=
  { uniform := 1 / 2, uniform_range := by norm_num,
    beta := fun _ success failure => success / (success + failure) }

/-- The slot the first loop of `uct_select_child` keeps: valid and not being expanded. -/
def selectable (c : UCTNodePointer) : Bool := c.valid && !c.is_expanding

/-- The index `best` of a loop of `uct_select_child` is a valid slot of `children`. -/
def best_valid (children : List UCTNodePointer) (best : Option Nat) : Prop :=
  ∀ i, best = some i → ∃ c, children[i]? = some c ∧ c.valid = true

/-- An inflated slot without visits, with the given move, prior, status and
expansion state. -/
def example_slot (move : Int) (policy : ℚ) (status : Status) (expand_state : ExpandState) :
    UCTNodePointer :=
  UCTNodePointer.inflated
    { m_move := move, m_policy := policy, m_status := status, m_expand_state := expand_state } []

/-! ## The Beta sampler -/

/-- The precondition of `boost::random::beta_distribution<float> dist(success,
failure)` in `uct_select_child`: a Beta distribution has two strictly positive
parameters. -/
def valid_beta_param (p : ℚ × ℚ) : Prop := 0 < p.1 ∧ 0 < p.2

instance (p : ℚ × ℚ) : Decidable (valid_beta_param p) := by
  unfold valid_beta_param; infer_instance

/-- A child visited once whose evaluator output is a certain win for Black:
`create_children` stores `m_net_eval = 1` when the evaluator returns winrate 1
with Black to move (winrate 0 with White to move). -/
def example_decided_child (net_variance : ℚ) : UCTNodePointer :=
  UCTNodePointer.inflated
    { m_move := 1, m_policy := 1, m_visits := 1, m_blackevals := 1, m_net_eval := 1,
      m_net_variance := net_variance } []

/-! ## Sorting the children -/

/-- The insertion step of a stable sort by the comparison `comp` ("less than"):
`a`, which stood before the elements of the sorted list, is placed after the
elements less than it and before the first element that is not. `none` is a
failed assertion of a comparison. -/
def stable_insert {α : Type} (comp : α → α → Option Bool) (a : α) : List α → Option (List α)
  | [] => some [a]
  | b :: l =>
    (comp b a).bind fun c =>
      if c then (stable_insert comp a l).map fun rest => b :: rest
      else some (a :: b :: l)

/-- The call `std::stable_sort(first, last, comp)` on the range `l`: ascending
by `comp`, equivalent elements in the order they have in `l`. The standard
fixes this result and not the sequence of comparisons, which here is that of
an insertion sort. -/
def stable_sort_comp {α : Type} (comp : α → α → Option Bool) : List α → Option (List α)
  | [] => some []
  | a :: l => (stable_sort_comp comp l).bind fun sorted => stable_insert comp a sorted

/-- Transcription of `UCTNode::sort_children`: the stable sort runs over the
reversed range `rbegin(m_children) .. rend(m_children)`. -/
def UCTNode.sort_children (cfg : Config) (n : UCTNode) (color : Int) (lcb_min_visits : ℚ) :
    Option UCTNode :=
  (stable_sort_comp (NodeComp cfg color lcb_min_visits) n.m_children.reverse).map fun sorted =>
    { n with m_children := sorted.reverse }

/-- The call `sort_children` on the child slots tagged with the index they have
in `m_children` before the call. `NodeComp` reads the slot alone, so the tags
record where each slot of the sorted list comes from. -/
def UCTNode.sort_children_slots (cfg : Config) (n : UCTNode) (color : Int)
    (lcb_min_visits : ℚ) : Option (List (Nat × UCTNodePointer)) :=
  (stable_sort_comp (fun a b => NodeComp cfg color lcb_min_visits a.2 b.2)
    n.m_children.enum.reverse).map List.reverse

/-- Four child slots: three visited three times with evaluation sums 1, 2 and 2
(the second and the third are tied under `NodeComp`) and one deflated slot. -/
def example_tied_children : List UCTNodePointer :=
  [example_child 1 (3/5) 3 1, example_child 2 (1/5) 3 2, example_child 3 (1/5) 3 2,
    UCTNodePointer.deflated 4 (1/10)]

/-! ## Theorems: expansion handshake -/

/-- C2: `acquire_expanding` returns true exactly when `m_expand_state` is INITIAL
at the call (and false exactly when it is EXPANDING or EXPANDED); a call that
returns true changes the state to EXPANDING and nothing else, and a call that
returns false leaves the node unchanged. -/
theorem acquire_expanding_cas (n : UCTNode) :
    (n.acquire_expanding.1 = true ↔ n.m_expand_state = ExpandState.INITIAL) ∧
    (n.acquire_expanding.1 = false ↔
      (n.m_expand_state = ExpandState.EXPANDING ∨ n.m_expand_state = ExpandState.EXPANDED)) ∧
    (n.acquire_expanding.1 = true →
      n.acquire_expanding.2 = { n with m_expand_state := ExpandState.EXPANDING }) ∧
    (n.acquire_expanding.1 = false → n.acquire_expanding.2 = n) := by
  unfold UCTNode.acquire_expanding
  cases h : n.m_expand_state <;> simp

/-- C1: under serial execution `create_children` always returns (no assertion
fails); it returns true if and only if the game state has fewer than two passes,
the node is INITIAL at the call and `min_psa_ratio < m_min_psa_ratio_children`;
and whenever it returns true the node is EXPANDED afterwards. -/
theorem create_children_true_iff (cfg : Config) (network : Network) (n : UCTNode)
    (nodecount : Int) (state : GameState) (eval variance min_psa_ratio : ℚ) :
    ∃ res, n.create_children cfg network nodecount state eval variance min_psa_ratio = some res ∧
      (res.ret = true ↔
        (state.passes < 2 ∧ n.m_expand_state = ExpandState.INITIAL ∧
          min_psa_ratio < n.m_min_psa_ratio_children)) ∧
      (res.ret = true → res.node.m_expand_state = ExpandState.EXPANDED) := by
  unfold UCTNode.create_children
  by_cases hp : state.passes ≥ 2
  · simp only [hp, if_true]
    refine ⟨_, rfl, ?_, by simp⟩
    simp only [Bool.false_eq_true, false_iff, not_and]
    intro h; omega
  · simp only [hp, if_false]
    have hp2 : state.passes < 2 := by omega
    by_cases hs : n.m_expand_state = ExpandState.INITIAL
    · by_cases hr : min_psa_ratio < n.m_min_psa_ratio_children
      · simp [UCTNode.acquire_expanding, UCTNode.expandable, UCTNode.link_nodelist,
          UCTNode.expand_done, assert, hs, hr, hp2]
        split_ifs <;> simp
      · simp [UCTNode.acquire_expanding, UCTNode.expandable, UCTNode.expand_done, assert,
          hs, hr, hp2]
    · simp [UCTNode.acquire_expanding, hs]

/-- C2 on a fresh node: the call returns true and the node is EXPANDING. -/
theorem acquire_expanding_cas_witness :
    (UCTNode.new 0 1).acquire_expanding.1 = true ∧
    (UCTNode.new 0 1).acquire_expanding.2.m_expand_state = ExpandState.EXPANDING := by
  obtain ⟨h1, _, h3, _⟩ := acquire_expanding_cas (UCTNode.new 0 1)
  have ht : (UCTNode.new 0 1).acquire_expanding.1 = true := h1.mpr rfl
  refine ⟨ht, ?_⟩
  rw [h3 ht]

/-- C1 on the 3×3 board: a fresh node is expanded, and a call at a position
with two passes returns false. -/
theorem create_children_true_iff_witness :
    (∃ res, (UCTNode.new 0 1).create_children example_config
        (example_network (fun _ => 1/10) (1/10) (1/2)) 0 (example_state 0) 0 0 0 = some res ∧
      res.ret = true ∧ res.node.m_expand_state = ExpandState.EXPANDED) ∧
    (∃ res, (UCTNode.new 0 1).create_children example_config
        (example_network (fun _ => 1/10) (1/10) (1/2)) 0
        { example_state 0 with passes := 2 } 0 0 0 = some res ∧
      res.ret = false) := by
  constructor
  · obtain ⟨res, h1, h2, h3⟩ := create_children_true_iff example_config
      (example_network (fun _ => 1/10) (1/10) (1/2)) (UCTNode.new 0 1) 0 (example_state 0) 0 0 0
    have ht : res.ret = true :=
      h2.mpr ⟨by decide, rfl, by simp [UCTNode.new]⟩
    exact ⟨res, h1, ht, h3 ht⟩
  · obtain ⟨res, h1, h2, _⟩ := create_children_true_iff example_config
      (example_network (fun _ => 1/10) (1/10) (1/2)) (UCTNode.new 0 1) 0
      { example_state 0 with passes := 2 } 0 0 0
    refine ⟨res, h1, ?_⟩
    rw [Bool.eq_false_iff]
    intro ht
    have := (h2.mp ht).1
    revert this
    decide

/-- Merging repeated neighbours of a trace whose steps are repeats or handshake
transitions leaves a chain of handshake transitions. -/
theorem chain_destutter_of_steps (l : List ExpandState) (a : ExpandState)
    (h : List.Chain (fun x y => x = y ∨ expand_transition x y) a l) :
    List.Chain' expand_transition (List.destutter' (fun x y => x ≠ y) a l) ∧
      (List.destutter' (fun x y => x ≠ y) a l).head? = some a := by
  induction l generalizing a with
  | nil => simp
  | cons b l ih =>
    rw [List.chain_cons] at h
    obtain ⟨hab, hl⟩ := h
    by_cases hne : a ≠ b
    · rw [List.destutter'_cons_pos _ hne]
      obtain ⟨hc, hh⟩ := ih b hl
      refine ⟨?_, by simp⟩
      rw [List.chain'_cons']
      refine ⟨?_, hc⟩
      intro y hy
      rw [hh] at hy
      cases hy
      rcases hab with hab | hab
      · exact absurd hab hne
      · exact hab
    · rw [List.destutter'_cons_neg _ hne]
      have hab2 : a = b := not_not.mp hne
      subst hab2
      exact ih a hl

/-- Every step of a trace of handshake calls is a repeat or a handshake transition. -/
theorem expand_trace_steps (ops : List ExpandOp) (n : UCTNode) (t : List ExpandState)
    (h : expand_trace ops n = some t) :
    ∃ l, t = n.m_expand_state :: l ∧
      List.Chain (fun x y => x = y ∨ expand_transition x y) n.m_expand_state l := by
  induction ops generalizing n t with
  | nil =>
    simp only [expand_trace, Option.some.injEq] at h
    exact ⟨[], h.symm, List.Chain.nil⟩
  | cons op ops ih =>
    simp only [expand_trace, Option.bind_eq_some, Option.map_eq_some'] at h
    obtain ⟨n1, hn1, t1, ht1, rfl⟩ := h
    obtain ⟨l1, rfl, hc⟩ := ih n1 t1 ht1
    refine ⟨_, rfl, List.Chain.cons ?_ hc⟩
    cases op with
    | acquire =>
      simp only [ExpandOp.apply, Option.some.injEq] at hn1
      subst hn1
      unfold UCTNode.acquire_expanding
      by_cases hs : n.m_expand_state = ExpandState.INITIAL
      · simp [hs, expand_transition]
      · simp [hs]
    | done =>
      simp only [ExpandOp.apply, UCTNode.expand_done, assert, Option.bind_eq_some] at hn1
      obtain ⟨_, hv, hn1⟩ := hn1
      split_ifs at hv with hs
      simp only [Option.some.injEq] at hn1
      subst hn1
      simp [hs, expand_transition]
    | cancel =>
      simp only [ExpandOp.apply, UCTNode.expand_cancel, assert, Option.bind_eq_some] at hn1
      obtain ⟨_, hv, hn1⟩ := hn1
      split_ifs at hv with hs
      simp only [Option.some.injEq] at hn1
      subst hn1
      simp [hs, expand_transition]

/-- C3, as the specification states it, fails: after a cancelled expansion the
node is acquired and expanded again, and the successive distinct values of
`m_expand_state` are INITIAL, EXPANDING, INITIAL, EXPANDING, EXPANDED, which is
none of the three listed traces. -/
theorem expand_trace_reacquire_after_cancel :
    expand_trace [ExpandOp.acquire, ExpandOp.cancel, ExpandOp.acquire, ExpandOp.done]
        (UCTNode.new 0 1) =
      some [ExpandState.INITIAL, ExpandState.EXPANDING, ExpandState.INITIAL,
        ExpandState.EXPANDING, ExpandState.EXPANDED] ∧
    distinct_values [ExpandState.INITIAL, ExpandState.EXPANDING, ExpandState.INITIAL,
        ExpandState.EXPANDING, ExpandState.EXPANDED] =
      [ExpandState.INITIAL, ExpandState.EXPANDING, ExpandState.INITIAL,
        ExpandState.EXPANDING, ExpandState.EXPANDED] ∧
    [ExpandState.INITIAL, ExpandState.EXPANDING, ExpandState.INITIAL,
        ExpandState.EXPANDING, ExpandState.EXPANDED] ∉ spec_traces := by
  refine ⟨by rfl, by decide, by decide⟩

/-- C3 (amended): from a freshly constructed node, along any sequence of
`acquire_expanding`, `expand_done` and `expand_cancel` calls whose assertions
hold, the successive distinct values of `m_expand_state` start at INITIAL and
each step between them is INITIAL to EXPANDING, EXPANDING to EXPANDED or
EXPANDING to INITIAL; no step leaves EXPANDED. -/
theorem expand_trace_transitions (vertex : Int) (policy : ℚ) (ops : List ExpandOp)
    (t : List ExpandState) (h : expand_trace ops (UCTNode.new vertex policy) = some t) :
    (distinct_values t).head? = some ExpandState.INITIAL ∧
    List.Chain' expand_transition (distinct_values t) ∧
    ∀ s, ¬ expand_transition ExpandState.EXPANDED s := by
  obtain ⟨l, rfl, hc⟩ := expand_trace_steps ops _ t h
  obtain ⟨h1, h2⟩ := chain_destutter_of_steps l _ hc
  refine ⟨?_, ?_, ?_⟩
  · simpa [distinct_values, List.destutter, UCTNode.new] using h2
  · simpa [distinct_values, List.destutter] using h1
  · intro s hs
    cases s <;> simp [expand_transition] at hs

/-- The amended C3 at the calls acquire, cancel, acquire, done on a fresh node. -/
theorem expand_trace_transitions_witness :
    (distinct_values [ExpandState.INITIAL, ExpandState.EXPANDING, ExpandState.INITIAL,
        ExpandState.EXPANDING, ExpandState.EXPANDED]).head? = some ExpandState.INITIAL ∧
    List.Chain' expand_transition
      (distinct_values [ExpandState.INITIAL, ExpandState.EXPANDING, ExpandState.INITIAL,
        ExpandState.EXPANDING, ExpandState.EXPANDED]) ∧
    ∀ s, ¬ expand_transition ExpandState.EXPANDED s :=
  expand_trace_transitions 0 1
    [ExpandOp.acquire, ExpandOp.cancel, ExpandOp.acquire, ExpandOp.done] _ (by rfl)

/-! ## Theorems: linking children -/

theorem not_after_total (a b : PolicyVertexPair) : not_after a b ∨ not_after b a := by
  unfold not_after pair_lt
  by_contra h
  push_neg at h
  obtain ⟨h1, h2⟩ := h
  rcases h1 with h1 | ⟨h1, h1'⟩ <;> rcases h2 with h2 | ⟨h2, h2'⟩ <;> linarith

theorem not_after_trans (a b c : PolicyVertexPair) (hab : not_after a b) (hbc : not_after b c) :
    not_after a c := by
  unfold not_after pair_lt at *
  push_neg at *
  obtain ⟨h1, h1'⟩ := hab
  obtain ⟨h2, h2'⟩ := hbc
  refine ⟨le_trans h1 h2, fun h => ?_⟩
  have e1 : a.1 = b.1 := le_antisymm h1 (le_trans h2 h)
  have e2 : b.1 = c.1 := le_antisymm h2 (le_trans h (by rw [e1]))
  have := h1' (by rw [e1])
  have := h2' (by rw [e2])
  omega

/-- The sorted reversed view: no element is followed by a smaller one. -/
theorem sorted_stable_sort (l : List PolicyVertexPair) :
    (stable_sort l).Sorted not_after := by
  haveI : IsTotal PolicyVertexPair not_after := ⟨not_after_total⟩
  haveI : IsTrans PolicyVertexPair not_after := ⟨not_after_trans⟩
  exact List.sorted_insertionSort not_after l

/-- Sorting rearranges the candidates and adds or drops none. -/
theorem stable_sort_reversed_perm (l : List PolicyVertexPair) :
    (stable_sort_reversed l).Perm l := by
  unfold stable_sort_reversed stable_sort
  exact (List.reverse_perm _).trans ((List.perm_insertionSort _ _).trans (List.reverse_perm _))

/-- After sorting no candidate is followed by a larger one. -/
theorem stable_sort_reversed_pairwise (l : List PolicyVertexPair) :
    (stable_sort_reversed l).Pairwise (fun a b => not_after b a) := by
  unfold stable_sort_reversed
  rw [List.pairwise_reverse]
  exact sorted_stable_sort _

/-- The first candidate after sorting carries the largest prior. -/
theorem head_stable_sort_reversed (l : List PolicyVertexPair) (hne : l ≠ []) :
    is_max_prior l ((stable_sort_reversed l).headD (0, 0)).1 := by
  have hperm := stable_sort_reversed_perm l
  have hpw := stable_sort_reversed_pairwise l
  cases hs : stable_sort_reversed l with
  | nil =>
    rw [hs] at hperm
    exact absurd hperm.symm.eq_nil hne
  | cons a t =>
    rw [hs] at hperm hpw
    simp only [List.headD_cons]
    refine ⟨⟨a, hperm.subset (List.mem_cons_self _ _), rfl⟩, fun p hp => ?_⟩
    have hp2 : p ∈ a :: t := hperm.symm.subset hp
    rcases List.mem_cons.mp hp2 with rfl | hpt
    · exact le_refl _
    · have := List.rel_of_pairwise_cons hpw hpt
      unfold not_after pair_lt at this
      push_neg at this
      exact this.1

/-- The loop of `link_nodelist` appends the candidates in the window between the
two cut-offs, counts them, and raises the flag for a candidate below the new one. -/
theorem foldl_link_step (new_min_psa old_min_psa : ℚ) (l : List PolicyVertexPair)
    (children : List UCTNodePointer) (nodecount : Int) (skipped : Bool) :
    l.foldl (link_step new_min_psa old_min_psa) (children, nodecount, skipped) =
      (children ++
          (l.filter fun p => decide (new_min_psa ≤ p.1 ∧ p.1 < old_min_psa)).map new_child,
        nodecount +
          ((l.filter fun p => decide (new_min_psa ≤ p.1 ∧ p.1 < old_min_psa)).length : Int),
        skipped || l.any fun p => decide (p.1 < new_min_psa)) := by
  induction l generalizing children nodecount skipped with
  | nil => simp
  | cons a l ih =>
    rw [List.foldl_cons]
    by_cases h1 : a.1 < new_min_psa
    · have h1' : ¬ new_min_psa ≤ a.1 := not_le.mpr h1
      have hstep : link_step new_min_psa old_min_psa (children, nodecount, skipped) a =
          (children, nodecount, true) := by
        unfold link_step; simp [h1]
      rw [hstep, ih]
      simp [h1, h1']
    · have h1' : new_min_psa ≤ a.1 := not_lt.mp h1
      by_cases h2 : a.1 < old_min_psa
      · have hstep : link_step new_min_psa old_min_psa (children, nodecount, skipped) a =
            (children ++ [new_child a], nodecount + 1, skipped) := by
          unfold link_step; simp [h1, h2]
        rw [hstep, ih]
        simp [h1, h1', h2, add_assoc]
        exact add_comm _ _
      · have hstep : link_step new_min_psa old_min_psa (children, nodecount, skipped) a =
            (children, nodecount, skipped) := by
          unfold link_step; simp [h1, h2]
        rw [hstep, ih]
        simp [h1, h1', h2]

/-- Sorting a vector that `link_nodelist` has sorted leaves it as it is. -/
theorem stable_sort_reversed_idem (l : List PolicyVertexPair) :
    stable_sort_reversed (stable_sort_reversed l) = stable_sort_reversed l := by
  unfold stable_sort_reversed
  rw [List.reverse_reverse]
  congr 1
  exact List.Sorted.insertionSort_eq (sorted_stable_sort l.reverse)

/-- What `link_nodelist` computes on a non-empty candidate list when its assertion holds. -/
theorem link_nodelist_eq (n : UCTNode) (nodecount : Int) (nodelist : List PolicyVertexPair)
    (min_psa_ratio : ℚ) (hne : nodelist ≠ [])
    (hpre : min_psa_ratio < n.m_min_psa_ratio_children) :
    n.link_nodelist nodecount nodelist min_psa_ratio =
      some
        { node :=
            { n with
              m_children := n.m_children ++
                (in_window (((stable_sort_reversed nodelist).headD (0, 0)).1 * min_psa_ratio)
                  (((stable_sort_reversed nodelist).headD (0, 0)).1 * n.m_min_psa_ratio_children)
                  (stable_sort_reversed nodelist)).map new_child,
              m_min_psa_ratio_children :=
                if (stable_sort_reversed nodelist).any fun p =>
                    decide (p.1 < ((stable_sort_reversed nodelist).headD (0, 0)).1 * min_psa_ratio)
                then min_psa_ratio else 0 },
          nodecount := nodecount +
            ((in_window (((stable_sort_reversed nodelist).headD (0, 0)).1 * min_psa_ratio)
              (((stable_sort_reversed nodelist).headD (0, 0)).1 * n.m_min_psa_ratio_children)
              (stable_sort_reversed nodelist)).length : Int),
          nodelist := stable_sort_reversed nodelist } := by
  have hemp : nodelist.isEmpty = false := by
    cases nodelist with
    | nil => exact absurd rfl hne
    | cons a t => rfl
  unfold UCTNode.link_nodelist
  simp only [assert, hpre, if_true, Option.some_bind, hemp, Bool.false_eq_true, if_false,
    foldl_link_step, Bool.false_or, in_window]

/-- C5: on a non-empty candidate list and a threshold below the one the node
holds, `link_nodelist` returns, keeps the existing children in place as a
prefix, and appends exactly the candidates whose prior `p` satisfies
`max_prior * r ≤ p < max_prior * (threshold before the call)`, in sorted order,
each as a deflated slot; the vector it sorted is a rearrangement of the
candidates; and `nodecount` grows by the number of slots appended. -/
theorem link_nodelist_appends_window (n : UCTNode) (nodecount : Int)
    (nodelist : List PolicyVertexPair) (min_psa_ratio : ℚ) (hne : nodelist ≠ [])
    (hpre : min_psa_ratio < n.m_min_psa_ratio_children) :
    ∃ res max_prior, n.link_nodelist nodecount nodelist min_psa_ratio = some res ∧
      is_max_prior nodelist max_prior ∧
      res.nodelist.Perm nodelist ∧
      res.node.m_children = n.m_children ++
        (in_window (max_prior * min_psa_ratio) (max_prior * n.m_min_psa_ratio_children)
          res.nodelist).map new_child ∧
      (in_window (max_prior * min_psa_ratio) (max_prior * n.m_min_psa_ratio_children)
          res.nodelist).Perm
        (in_window (max_prior * min_psa_ratio) (max_prior * n.m_min_psa_ratio_children)
          nodelist) ∧
      res.nodecount = nodecount +
        ((in_window (max_prior * min_psa_ratio) (max_prior * n.m_min_psa_ratio_children)
          nodelist).length : Int) ∧
      res.nodecount - nodecount =
        (res.node.m_children.length : Int) - (n.m_children.length : Int) := by
  have hperm := stable_sort_reversed_perm nodelist
  refine ⟨_, _, link_nodelist_eq n nodecount nodelist min_psa_ratio hne hpre,
    head_stable_sort_reversed nodelist hne, hperm, rfl, ?_, ?_, ?_⟩
  · exact hperm.filter _
  · simp only [in_window]
    rw [(hperm.filter _).length_eq]
  · simp only [List.length_append, List.length_map]
    push_cast
    ring

/-- C5 at the candidates 3/5, 3/10, 1/10 with threshold 1/2 on a fresh node. -/
theorem link_nodelist_appends_window_witness :
    ∃ res max_prior,
      (UCTNode.new 0 1).link_nodelist 0 [(3/5, 1), (3/10, 2), (1/10, 3)] (1/2) = some res ∧
      is_max_prior [(3/5, 1), (3/10, 2), (1/10, 3)] max_prior ∧
      res.nodelist.Perm [(3/5, 1), (3/10, 2), (1/10, 3)] ∧
      res.node.m_children = (UCTNode.new 0 1).m_children ++
        (in_window (max_prior * (1/2)) (max_prior * (UCTNode.new 0 1).m_min_psa_ratio_children)
          res.nodelist).map new_child ∧
      (in_window (max_prior * (1/2)) (max_prior * (UCTNode.new 0 1).m_min_psa_ratio_children)
          res.nodelist).Perm
        (in_window (max_prior * (1/2)) (max_prior * (UCTNode.new 0 1).m_min_psa_ratio_children)
          [(3/5, 1), (3/10, 2), (1/10, 3)]) ∧
      res.nodecount = 0 +
        ((in_window (max_prior * (1/2)) (max_prior * (UCTNode.new 0 1).m_min_psa_ratio_children)
          [(3/5, 1), (3/10, 2), (1/10, 3)]).length : Int) ∧
      res.nodecount - 0 =
        (res.node.m_children.length : Int) - ((UCTNode.new 0 1).m_children.length : Int) :=
  link_nodelist_appends_window (UCTNode.new 0 1) 0 [(3/5, 1), (3/10, 2), (1/10, 3)] (1/2)
    (by simp) (by simp [UCTNode.new]; norm_num)

/-- C6: after `link_nodelist` on a non-empty candidate list (its assertion
holding), `m_min_psa_ratio_children` is the threshold of the call if some
candidate has a prior below `max_prior * threshold`, and 0 otherwise; in the
latter case `expandable(r)` is true for no `r ≥ 0`, and is false whenever its
debug assertion holds (the node is not INITIAL, as under the expansion lock). -/
theorem link_nodelist_min_psa_ratio (n : UCTNode) (nodecount : Int)
    (nodelist : List PolicyVertexPair) (min_psa_ratio : ℚ) (hne : nodelist ≠ [])
    (hpre : min_psa_ratio < n.m_min_psa_ratio_children) :
    ∃ res max_prior, n.link_nodelist nodecount nodelist min_psa_ratio = some res ∧
      is_max_prior nodelist max_prior ∧
      ((∃ p ∈ nodelist, p.1 < max_prior * min_psa_ratio) →
        res.node.m_min_psa_ratio_children = min_psa_ratio) ∧
      ((¬ ∃ p ∈ nodelist, p.1 < max_prior * min_psa_ratio) →
        res.node.m_min_psa_ratio_children = 0 ∧
        ∀ r : ℚ, 0 ≤ r →
          res.node.expandable r ≠ some true ∧
          (n.m_expand_state ≠ ExpandState.INITIAL → res.node.expandable r = some false)) := by
  have hperm := stable_sort_reversed_perm nodelist
  refine ⟨_, _, link_nodelist_eq n nodecount nodelist min_psa_ratio hne hpre,
    head_stable_sort_reversed nodelist hne, ?_, ?_⟩
  · rintro ⟨p, hp, hlt⟩
    have hany : ((stable_sort_reversed nodelist).any fun p =>
        decide (p.1 < ((stable_sort_reversed nodelist).headD (0, 0)).1 * min_psa_ratio)) = true :=
      List.any_eq_true.mpr ⟨p, hperm.symm.subset hp, by simpa using hlt⟩
    simp only [hany, if_true]
  · intro hno
    have hany : ((stable_sort_reversed nodelist).any fun p =>
        decide (p.1 < ((stable_sort_reversed nodelist).headD (0, 0)).1 * min_psa_ratio)) = false := by
      rw [Bool.eq_false_iff]
      intro h
      obtain ⟨p, hp, hlt⟩ := List.any_eq_true.mp h
      exact hno ⟨p, hperm.subset hp, by simpa using hlt⟩
    simp only [hany, Bool.false_eq_true, if_false, true_and]
    intro r hr
    have hnot : ¬ r < 0 := not_lt.mpr hr
    constructor
    · unfold UCTNode.expandable
      simp only [if_true, assert]
      split_ifs <;> simp [hnot]
    · intro hs
      unfold UCTNode.expandable
      simp [assert, hs, hnot]

/-- C6 at the candidates 3/5, 3/10 with threshold 0 on a node that holds the
expansion lock: nothing is skipped. -/
theorem link_nodelist_min_psa_ratio_witness :
    ∃ res max_prior,
      ({ UCTNode.new 0 1 with m_expand_state := ExpandState.EXPANDING }).link_nodelist 0
          [(3/5, 1), (3/10, 2)] 0 = some res ∧
      is_max_prior [(3/5, 1), (3/10, 2)] max_prior ∧
      ((∃ p ∈ [((3/5 : ℚ), (1 : Int)), (3/10, 2)], p.1 < max_prior * 0) →
        res.node.m_min_psa_ratio_children = 0) ∧
      ((¬ ∃ p ∈ [((3/5 : ℚ), (1 : Int)), (3/10, 2)], p.1 < max_prior * 0) →
        res.node.m_min_psa_ratio_children = 0 ∧
        ∀ r : ℚ, 0 ≤ r →
          res.node.expandable r ≠ some true ∧
          (({ UCTNode.new 0 1 with m_expand_state := ExpandState.EXPANDING } : UCTNode).m_expand_state
              ≠ ExpandState.INITIAL → res.node.expandable r = some false)) :=
  link_nodelist_min_psa_ratio { UCTNode.new 0 1 with m_expand_state := ExpandState.EXPANDING } 0
    [(3/5, 1), (3/10, 2)] 0 (by simp) (by simp [UCTNode.new])

/-- C4: for a non-empty candidate list and thresholds `r2 < r1` from the domain
of the data model (the threshold is a ratio, `0 ≤ r2`, or the priors are
probabilities, none negative: either suffices), `link_nodelist` with `r1` on a
fresh node returns, and a following `link_nodelist` with `r2` on the same
candidate list (as the first call left it, or as it was given), whenever its
precondition `r2 < m_min_psa_ratio_children` holds, returns too, keeps every
child of the first call at its position, and appends only children with
`prior < r1 * max_prior`. -/
theorem link_nodelist_progressive (vertex : Int) (policy : ℚ) (nodecount : Int)
    (nodelist : List PolicyVertexPair) (r1 r2 : ℚ) (hne : nodelist ≠ [])
    (_h21 : r2 < r1) (hdom : 0 ≤ r2 ∨ ∀ p ∈ nodelist, 0 ≤ p.1)
    (hpre1 : r1 < (UCTNode.new vertex policy).m_min_psa_ratio_children) :
    ∃ res1 max_prior,
      (UCTNode.new vertex policy).link_nodelist nodecount nodelist r1 = some res1 ∧
      is_max_prior nodelist max_prior ∧
      ∀ nodelist2, (nodelist2 = nodelist ∨ nodelist2 = res1.nodelist) →
        r2 < res1.node.m_min_psa_ratio_children →
        ∃ res2 added, res1.node.link_nodelist res1.nodecount nodelist2 r2 = some res2 ∧
          res2.node.m_children = res1.node.m_children ++ added ∧
          ∀ c ∈ added, c.get_policy < r1 * max_prior := by
  refine ⟨_, _, link_nodelist_eq _ nodecount nodelist r1 hne hpre1,
    head_stable_sort_reversed nodelist hne, ?_⟩
  intro nodelist2 hnl2 hpre2
  have hperm := stable_sort_reversed_perm nodelist
  have hsort : stable_sort_reversed nodelist2 = stable_sort_reversed nodelist := by
    rcases hnl2 with rfl | rfl
    · rfl
    · exact stable_sort_reversed_idem nodelist
  have hne2 : nodelist2 ≠ [] := by
    rcases hnl2 with rfl | rfl
    · exact hne
    · intro h
      have hp := hperm
      simp only at h
      rw [h] at hp
      exact hne hp.symm.eq_nil
  refine ⟨_, _, link_nodelist_eq _ _ nodelist2 r2 hne2 hpre2, rfl, ?_⟩
  intro c hc
  rw [hsort] at hc
  simp only [List.mem_map, in_window, List.mem_filter, decide_eq_true_eq] at hc
  obtain ⟨p, ⟨hmem, _, hlt⟩, rfl⟩ := hc
  simp only at hpre2
  split_ifs at hpre2 hlt with hany
  · simp only [new_child, UCTNodePointer.get_policy]
    rw [mul_comm]
    exact hlt
  · rcases hdom with h0 | hnn
    · exact absurd hpre2 (not_lt.mpr h0)
    · rw [mul_zero] at hlt
      exact absurd hlt (not_lt.mpr (hnn p (hperm.subset hmem)))

/-- C4 at the candidates 3/5, 3/10, 1/10 with thresholds 1/2 and then 1/10:
both calls return, the first links 3/5 and 3/10, the second keeps them. -/
theorem link_nodelist_progressive_witness :
    ∃ res1 res2 max_prior added,
      (UCTNode.new 0 1).link_nodelist 0 [(3/5, 1), (3/10, 2), (1/10, 3)] (1/2) = some res1 ∧
      res1.node.m_children.map UCTNodePointer.pair = [(3/5, 1), (3/10, 2)] ∧
      res1.node.link_nodelist res1.nodecount res1.nodelist (1/10) = some res2 ∧
      is_max_prior [(3/5, 1), (3/10, 2), (1/10, 3)] max_prior ∧
      res2.node.m_children = res1.node.m_children ++ added ∧
      ∀ c ∈ added, c.get_policy < 1/2 * max_prior := by
  obtain ⟨res1, max_prior, h1, hmax, hrest⟩ :=
    link_nodelist_progressive 0 1 0 [(3/5, 1), (3/10, 2), (1/10, 3)] (1/2) (1/10)
      (by simp) (by norm_num) (Or.inl (by norm_num)) (by simp [UCTNode.new]; norm_num)
  have hev : (UCTNode.new 0 1).link_nodelist 0 [(3/5, 1), (3/10, 2), (1/10, 3)] (1/2) =
      some { node := { UCTNode.new 0 1 with
                       m_children := [new_child (3/5, 1), new_child (3/10, 2)],
                       m_min_psa_ratio_children := 1/2 },
             nodecount := 2,
             nodelist := [(3/5, 1), (3/10, 2), (1/10, 3)] } := by
    with_unfolding_all rfl
  rw [hev] at h1
  cases h1
  obtain ⟨res2, added, h2, hch, hlt⟩ := hrest _ (Or.inr rfl) (by norm_num)
  exact ⟨_, res2, max_prior, added, hev, by with_unfolding_all rfl, h2, hmax, hch, hlt⟩

/-- C7, as stated, fails: linking the candidates (1/2, vertex 1), (1/2, vertex 2)
into a fresh node with threshold 0 gives the children vertex 2, vertex 1; the
two candidates of equal prior are not in the order of the input. -/
theorem link_nodelist_ties_not_in_input_order :
    ((UCTNode.new 0 1).link_nodelist 0 [(1/2, 1), (1/2, 2)] 0).map
        (fun res => res.node.m_children.map UCTNodePointer.pair) =
      some [(1/2, 2), (1/2, 1)] ∧
    ¬ ties_in_input_order [(1/2, 1), (1/2, 2)] [(1/2, 2), (1/2, 1)] := by
  refine ⟨by with_unfolding_all decide, ?_⟩
  intro h
  have := h (1/2, 2) (1/2, 1) rfl (List.Sublist.refl _)
  revert this
  with_unfolding_all decide

/-- C7 (amended): `link_nodelist` sorts the candidates in descending order of
the pair (prior, vertex): after linking a fresh node with threshold 0 the
children are in non-increasing prior order, and of two children with equal
prior the one with the larger vertex comes first, whatever the input order. -/
theorem link_nodelist_children_sorted (vertex : Int) (policy : ℚ) (nodecount : Int)
    (nodelist : List PolicyVertexPair) :
    ∃ res, (UCTNode.new vertex policy).link_nodelist nodecount nodelist 0 = some res ∧
      res.node.m_children.Pairwise (fun a b => b.get_policy ≤ a.get_policy) ∧
      res.node.m_children.Pairwise
        (fun a b => a.get_policy = b.get_policy → b.get_move ≤ a.get_move) := by
  by_cases hne : nodelist = []
  · subst hne
    refine ⟨_, by simp [UCTNode.link_nodelist, assert, UCTNode.new]; rfl, ?_, ?_⟩ <;>
      simp [UCTNode.new]
  · have hpre : (0 : ℚ) < (UCTNode.new vertex policy).m_min_psa_ratio_children := by
      simp [UCTNode.new]
    have hpw := stable_sort_reversed_pairwise nodelist
    have hboth : ∀ a b : PolicyVertexPair, not_after b a →
        b.1 ≤ a.1 ∧ (a.1 = b.1 → b.2 ≤ a.2) := by
      intro a b hab
      unfold not_after pair_lt at hab
      push_neg at hab
      exact ⟨hab.1, fun heq => hab.2 (by rw [heq])⟩
    refine ⟨_, link_nodelist_eq _ nodecount nodelist 0 hne hpre, ?_, ?_⟩
    · simp only [UCTNode.new, List.nil_append, in_window, List.pairwise_map]
      exact (hpw.filter _).imp fun {a b} hab => (hboth a b hab).1
    · simp only [UCTNode.new, List.nil_append, in_window, List.pairwise_map]
      exact (hpw.filter _).imp fun {a b} hab => (hboth a b hab).2

/-! ## Theorems: the PASS candidate -/

/-- What `allow_pass` computes. -/
theorem allow_pass_iff (cfg : Config) (state : GameState) (stm_eval : ℚ) (num_legal : Nat) :
    allow_pass cfg state stm_eval num_legal = true ↔
      (cfg.cfg_dumbpass = true ∨ num_legal ≤ max 5 cfg.BOARD_SIZE ∨
        (stm_eval > literal_0_8f ∧ 0 ≤ relative_score cfg state)) := by
  unfold allow_pass
  by_cases hd : cfg.cfg_dumbpass = true <;> by_cases hn : num_legal ≤ max 5 cfg.BOARD_SIZE <;>
    by_cases hw : stm_eval > literal_0_8f <;> by_cases hs : relative_score cfg state ≥ 0 <;>
    simp [hd, hn, hw, hs]

/-- C9 fails on the code at a drawn final score: with dumb-pass off, nine legal
moves on a 3×3 board, winrate 9/10, Black to move and final score 0,
`create_children` puts PASS among the candidates, although the score favours
neither side and the comment above the guard allows PASS only when "winning on
the net score and on the board count". -/
theorem pass_admitted_at_drawn_score :
    allow_pass example_config (example_state 0) (9/10)
        (legal_moves example_config (example_state 0)
          ((example_network (fun _ => 1/10) (1/10) (9/10)).get_output (example_state 0))).1.length
      = true ∧
    (candidate_list example_config (example_state 0)
        ((example_network (fun _ => 1/10) (1/10) (9/10)).get_output (example_state 0))).map
        Prod.snd = [6, 7, 8, 11, 12, 13, 16, 17, 18, example_config.PASS] ∧
    ¬ spec_pass_condition example_config (example_state 0) (9/10)
        (legal_moves example_config (example_state 0)
          ((example_network (fun _ => 1/10) (1/10) (9/10)).get_output (example_state 0))).1.length := by
  refine ⟨by decide!, by decide!, ?_⟩
  have hlen : (legal_moves example_config (example_state 0)
      ((example_network (fun _ => 1/10) (1/10) (9/10)).get_output (example_state 0))).1.length
      = 9 := by decide!
  rw [hlen]
  unfold spec_pass_condition favors_side_to_move relative_score
  simp [example_config, example_state]

/-- What the PASS branch computes: in `create_children` the vertices of the
candidate list are the legal board moves followed by PASS exactly when
`allow_pass` holds, and `allow_pass` holds if and only if `cfg_dumbpass` is on, or the number of legal
board moves is at most `max(5, BOARD_SIZE)`, or the side-to-move winrate is
above `0.8f` and the final score seen from the side to move is at least 0. With
dumb-pass off, more than `max(5, BOARD_SIZE)` legal
moves, winrate 0.9 and Black to move, PASS is admitted for final score 5 and
not for final score -5. -/
theorem pass_admitted_iff (cfg : Config) (state : GameState) (raw_netlist : Netresult) :
    (candidate_list cfg state raw_netlist).map Prod.snd =
      (legal_moves cfg state raw_netlist).1.map Prod.snd ++
        (if allow_pass cfg state raw_netlist.winrate (legal_moves cfg state raw_netlist).1.length
          then [cfg.PASS] else []) ∧
    (allow_pass cfg state raw_netlist.winrate (legal_moves cfg state raw_netlist).1.length = true ↔
      (cfg.cfg_dumbpass = true ∨
        (legal_moves cfg state raw_netlist).1.length ≤ max 5 cfg.BOARD_SIZE ∨
        (raw_netlist.winrate > literal_0_8f ∧ 0 ≤ relative_score cfg state))) ∧
    (cfg.cfg_dumbpass = false →
      max 5 cfg.BOARD_SIZE < (legal_moves cfg state raw_netlist).1.length →
      raw_netlist.winrate = 9 / 10 → state.to_move = cfg.BLACK →
      (state.final_score = 5 →
        allow_pass cfg state raw_netlist.winrate (legal_moves cfg state raw_netlist).1.length
          = true) ∧
      (state.final_score = -5 →
        allow_pass cfg state raw_netlist.winrate (legal_moves cfg state raw_netlist).1.length
          = false)) := by
  refine ⟨?_, allow_pass_iff _ _ _ _, ?_⟩
  · unfold candidate_list
    simp only
    split_ifs <;> simp
  · intro hd hn hw hb
    constructor
    · intro hs
      rw [allow_pass_iff]
      right; right
      rw [hw]
      refine ⟨by norm_num [literal_0_8f], ?_⟩
      simp [relative_score, hb, hs]
    · intro hs
      rw [Bool.eq_false_iff, Ne, allow_pass_iff]
      rintro (h | h | ⟨_, h⟩)
      · rw [hd] at h; exact absurd h (by simp)
      · exact absurd h (not_le.mpr hn)
      · simp [relative_score, hb, hs] at h
        exact absurd h (by norm_num)

/-- On the 3×3 board with nine legal moves, winrate 9/10 and Black to move,
PASS is admitted at final score 5 and not at final score -5. -/
theorem pass_admitted_iff_witness :
    allow_pass example_config (example_state 5) (9/10)
        (legal_moves example_config (example_state 5)
          ((example_network (fun _ => 1/10) (1/10) (9/10)).get_output (example_state 5))).1.length
      = true ∧
    allow_pass example_config (example_state (-5)) (9/10)
        (legal_moves example_config (example_state (-5))
          ((example_network (fun _ => 1/10) (1/10) (9/10)).get_output
            (example_state (-5)))).1.length
      = false := by
  constructor
  · exact ((pass_admitted_iff example_config (example_state 5)
      ((example_network (fun _ => 1/10) (1/10) (9/10)).get_output (example_state 5))).2.2
      rfl (by decide!) rfl rfl).1 rfl
  · exact ((pass_admitted_iff example_config (example_state (-5))
      ((example_network (fun _ => 1/10) (1/10) (9/10)).get_output (example_state (-5)))).2.2
      rfl (by decide!) rfl rfl).2 rfl

/-! ## Theorems: back-propagation -/

/-- Visits and the evaluation sum after a serial run of `update`. -/
theorem update_all_totals (evals : List ℚ) (n : UCTNode) :
    (n.update_all evals).m_visits = n.m_visits + evals.length ∧
    (n.update_all evals).m_blackevals = n.m_blackevals + evals.sum := by
  induction evals generalizing n with
  | nil => simp [UCTNode.update_all]
  | cons v vs ih =>
    have h := ih (n.update v)
    unfold UCTNode.update_all at h ⊢
    rw [List.foldl_cons]
    rw [h.1, h.2]
    simp only [UCTNode.update, UCTNode.accumulate_eval, List.length_cons, List.sum_cons]
    constructor
    · push_cast; ring
    · ring

/-- C10: for every non-empty sequence of evaluations applied serially by
`update` to a node with zero visits and zero evaluation sum, `m_visits` is the
length of the sequence and `m_blackevals / m_visits` is its arithmetic mean. -/
theorem update_all_mean (n : UCTNode) (evals : List ℚ) (hv : n.m_visits = 0)
    (hb : n.m_blackevals = 0) (_hne : evals ≠ []) :
    (n.update_all evals).m_visits = evals.length ∧
    (n.update_all evals).m_blackevals / ((n.update_all evals).m_visits : ℚ) =
      evals.sum / (evals.length : ℚ) := by
  obtain ⟨h1, h2⟩ := update_all_totals evals n
  rw [h1, h2, hv, hb]
  simp

/-- C10 at the evaluations 1/10, 2/5, 3/5, 9/10 on a fresh node. -/
theorem update_all_mean_witness :
    ((UCTNode.new 0 1).update_all [1/10, 2/5, 3/5, 9/10]).m_visits
      = ([1/10, 2/5, 3/5, 9/10] : List ℚ).length ∧
    ((UCTNode.new 0 1).update_all [1/10, 2/5, 3/5, 9/10]).m_blackevals /
        (((UCTNode.new 0 1).update_all [1/10, 2/5, 3/5, 9/10]).m_visits : ℚ) =
      ([1/10, 2/5, 3/5, 9/10] : List ℚ).sum / (([1/10, 2/5, 3/5, 9/10] : List ℚ).length : ℚ) :=
  update_all_mean (UCTNode.new 0 1) [1/10, 2/5, 3/5, 9/10] rfl rfl (by simp)

/-! ## Theorems: priors of the children -/

/-- The loop over the board points keeps `legal_sum` equal to the sum of the
collected priors, and collects no negative prior from a non-negative policy. -/
theorem foldl_legal_step_inv (cfg : Config) (state : GameState) (raw_netlist : Netresult)
    (hpol : ∀ i, 0 ≤ raw_netlist.policy i) (l : List Nat) (st : LegalLoop)
    (hsum : (st.1.map Prod.fst).sum = st.2) (hnn : ∀ p ∈ st.1, 0 ≤ p.1) :
    ((l.foldl (legal_step cfg state raw_netlist) st).1.map Prod.fst).sum =
        (l.foldl (legal_step cfg state raw_netlist) st).2 ∧
      ∀ p ∈ (l.foldl (legal_step cfg state raw_netlist) st).1, 0 ≤ p.1 := by
  induction l generalizing st with
  | nil => exact ⟨hsum, hnn⟩
  | cons i l ih =>
    rw [List.foldl_cons]
    apply ih
    · unfold legal_step
      simp only
      split_ifs
      · simp [hsum]
      · exact hsum
    · unfold legal_step
      simp only
      split_ifs
      · intro p hp
        rcases List.mem_append.mp hp with h | h
        · exact hnn p h
        · simp only [List.mem_singleton] at h
          rw [h]
          exact hpol i
      · exact hnn

/-- Dividing every prior by `s` divides their sum by `s`. -/
theorem sum_map_div (l : List PolicyVertexPair) (s : ℚ) :
    ((l.map fun node => (node.1 / s, node.2)).map Prod.fst).sum = (l.map Prod.fst).sum / s := by
  induction l with
  | nil => simp
  | cons a l ih =>
    simp only [List.map_cons, List.sum_cons, ih]
    ring

/-- Setting every prior to `u` makes their sum `length * u`. -/
theorem sum_map_const (l : List PolicyVertexPair) (u : ℚ) :
    ((l.map fun node => (u, node.2)).map Prod.fst).sum = (l.length : ℚ) * u := by
  induction l with
  | nil => simp
  | cons a l ih =>
    simp only [List.map_cons, List.sum_cons, ih, List.length_cons]
    push_cast
    ring

/-- With a non-negative evaluator output the candidate list is not empty, its
priors are not negative and they sum to 1. -/
theorem candidate_list_normalised (cfg : Config) (state : GameState) (raw_netlist : Netresult)
    (hpol : ∀ i, 0 ≤ raw_netlist.policy i) (hpass : 0 ≤ raw_netlist.policy_pass) :
    candidate_list cfg state raw_netlist ≠ [] ∧
      ((candidate_list cfg state raw_netlist).map Prod.fst).sum = 1 ∧
      ∀ p ∈ candidate_list cfg state raw_netlist, 0 ≤ p.1 := by
  have hinv : ((legal_moves cfg state raw_netlist).1.map Prod.fst).sum =
        (legal_moves cfg state raw_netlist).2 ∧
      ∀ p ∈ (legal_moves cfg state raw_netlist).1, 0 ≤ p.1 :=
    foldl_legal_step_inv cfg state raw_netlist hpol
      (List.range cfg.NUM_INTERSECTIONS) ([], 0) (by simp) (by simp)
  obtain ⟨hsum, hnn⟩ := hinv
  have key : ∀ st : LegalLoop, st.1 ≠ [] → (st.1.map Prod.fst).sum = st.2 →
      (∀ p ∈ st.1, 0 ≤ p.1) →
      (if st.2 > FLT_MIN then st.1.map fun node => (node.1 / st.2, node.2)
        else st.1.map fun node => (1 / (st.1.length : ℚ), node.2)) ≠ [] ∧
      ((if st.2 > FLT_MIN then st.1.map fun node => (node.1 / st.2, node.2)
        else st.1.map fun node => (1 / (st.1.length : ℚ), node.2)).map Prod.fst).sum = 1 ∧
      ∀ p ∈ (if st.2 > FLT_MIN then st.1.map fun node => (node.1 / st.2, node.2)
        else st.1.map fun node => (1 / (st.1.length : ℚ), node.2)), 0 ≤ p.1 := by
    intro st hne hs hn
    have hlen : (st.1.length : ℚ) ≠ 0 := by
      have : st.1.length ≠ 0 := fun h => hne (List.length_eq_zero.mp h)
      exact_mod_cast this
    have hmin : (0 : ℚ) < FLT_MIN := by unfold FLT_MIN; positivity
    split_ifs with hgt
    · have hpos : 0 < st.2 := lt_trans hmin hgt
      refine ⟨by simpa using hne, ?_, ?_⟩
      · rw [sum_map_div, hs]
        exact div_self (ne_of_gt hpos)
      · intro p hp
        simp only [List.mem_map] at hp
        obtain ⟨q, hq, rfl⟩ := hp
        exact div_nonneg (hn q hq) hpos.le
    · refine ⟨by simpa using hne, ?_, ?_⟩
      · rw [sum_map_const]
        field_simp
      · intro p hp
        simp only [List.mem_map] at hp
        obtain ⟨q, _, rfl⟩ := hp
        positivity
  unfold candidate_list
  simp only
  by_cases hallow : allow_pass cfg state raw_netlist.winrate
      (legal_moves cfg state raw_netlist).1.length = true
  · simp only [hallow, if_true]
    refine key ((legal_moves cfg state raw_netlist).1 ++ [(raw_netlist.policy_pass, cfg.PASS)],
      (legal_moves cfg state raw_netlist).2 + raw_netlist.policy_pass) ?_ ?_ ?_
    · simp
    · simp only [List.map_append, List.sum_append, List.map_cons, List.map_nil, List.sum_cons,
        List.sum_nil, add_zero]
      rw [hsum]
    · intro p hp
      rcases List.mem_append.mp hp with h | h
      · exact hnn p h
      · simp only [List.mem_singleton] at h
        rw [h]
        exact hpass
  · simp only [hallow, Bool.false_eq_true, if_false]
    refine key (legal_moves cfg state raw_netlist) ?_ hsum hnn
    · intro hnil
      apply hallow
      rw [allow_pass_iff]
      right; left
      rw [hnil]
      simp

/-- A successful `create_children` links the candidates in the window between
`max_prior * min_psa_ratio` and `max_prior * m_min_psa_ratio_children`. -/
theorem create_children_links (cfg : Config) (network : Network) (n : UCTNode)
    (nodecount : Int) (state : GameState) (eval variance min_psa_ratio : ℚ)
    (hp : state.passes < 2) (hs : n.m_expand_state = ExpandState.INITIAL)
    (hr : min_psa_ratio < n.m_min_psa_ratio_children)
    (hne : candidate_list cfg state (network.get_output state) ≠ []) :
    ∃ res max_prior,
      n.create_children cfg network nodecount state eval variance min_psa_ratio = some res ∧
      res.ret = true ∧
      is_max_prior (candidate_list cfg state (network.get_output state)) max_prior ∧
      res.node.m_children = n.m_children ++
        (in_window (max_prior * min_psa_ratio) (max_prior * n.m_min_psa_ratio_children)
          (stable_sort_reversed (candidate_list cfg state (network.get_output state)))).map
          new_child := by
  have hp2 : ¬ state.passes ≥ 2 := by omega
  have hlink := link_nodelist_eq
    { n with m_expand_state := ExpandState.EXPANDING,
             m_net_variance := (network.get_output state).variance,
             m_net_eval := if state.to_move = cfg.WHITE then 1 - (network.get_output state).winrate
                           else (network.get_output state).winrate }
    nodecount (candidate_list cfg state (network.get_output state)) min_psa_ratio hne hr
  have hassert : (if n.m_min_psa_ratio_children = 0 then
      (if ExpandState.EXPANDING ≠ ExpandState.INITIAL then some () else none)
      else some ()) = some () := by
    simp
  unfold UCTNode.create_children
  simp only [hp2, if_false, UCTNode.acquire_expanding, hs, if_true, Bool.not_true,
      Bool.false_eq_true, UCTNode.expandable, assert, hr, decide_True, hassert,
      Option.some_bind]
  rw [hlink]
  simp only [Option.some_bind, UCTNode.expand_done, assert, if_true, Option.map_some']
  exact ⟨_, _, rfl, rfl, head_stable_sort_reversed _ hne, rfl⟩

/-- The priors of a list split into those that pass a test and those that fail it. -/
theorem sum_filter_add_sum_filter_not (l : List PolicyVertexPair) (q : PolicyVertexPair → Bool) :
    ((l.filter q).map Prod.fst).sum + ((l.filter fun p => !q p).map Prod.fst).sum =
      (l.map Prod.fst).sum := by
  induction l with
  | nil => simp
  | cons a l ih =>
    cases hq : q a
    · simp only [List.filter_cons, hq, Bool.false_eq_true, if_false, Bool.not_false, if_true,
        List.map_cons, List.sum_cons]
      rw [← ih]; ring
    · simp only [List.filter_cons, hq, if_true, Bool.not_true, Bool.false_eq_true, if_false,
        List.map_cons, List.sum_cons]
      rw [← ih]; ring

/-- The priors of freshly linked slots are the priors of their candidates. -/
theorem prior_sum_map_new_child (l : List PolicyVertexPair) :
    prior_sum (l.map new_child) = (l.map Prod.fst).sum := by
  unfold prior_sum
  rw [List.map_map]
  rfl

/-- C8, as stated, fails for a positive threshold: on the 3×3 board with
policy 6/10 on the first point and 1/20 on the eight others (non-negative,
summing to 1), `create_children` with threshold 1/2 succeeds and links the one
child of prior 3/5; the children's priors sum to 3/5, not to 1. -/
theorem create_children_pruned_prior_sum :
    ((UCTNode.new 0 1).create_children example_config
        (example_network (fun i => if i = 0 then 6/10 else 1/20) 0 (1/2)) 0 (example_state 0)
        0 0 (1/2)).map
      (fun res => (res.ret, res.node.m_children.map UCTNodePointer.pair,
        prior_sum res.node.m_children)) =
      some (true, [(3/5, 6)], 3/5) := by
  decide!

/-- C8 (amended): `create_children` on a freshly constructed node, with fewer
than two passes, a threshold below 2 and an evaluator output with non-negative
priors, succeeds; the renormalised candidate priors sum to 1; the children's
priors sum to 1 minus the priors of the candidates below
`max_prior * threshold`, which are not linked; and for a threshold of 0 (or
less) the children's priors sum to exactly 1. -/
theorem create_children_prior_sum (cfg : Config) (network : Network) (vertex : Int)
    (policy : ℚ) (nodecount : Int) (state : GameState) (eval variance min_psa_ratio : ℚ)
    (hp : state.passes < 2) (hr : min_psa_ratio < 2)
    (hpol : ∀ i, 0 ≤ (network.get_output state).policy i)
    (hpass : 0 ≤ (network.get_output state).policy_pass) :
    ∃ res max_prior,
      (UCTNode.new vertex policy).create_children cfg network nodecount state eval variance
          min_psa_ratio = some res ∧
      res.ret = true ∧
      is_max_prior (candidate_list cfg state (network.get_output state)) max_prior ∧
      ((candidate_list cfg state (network.get_output state)).map Prod.fst).sum = 1 ∧
      prior_sum res.node.m_children = 1 -
        (((candidate_list cfg state (network.get_output state)).filter fun p =>
          decide (p.1 < max_prior * min_psa_ratio)).map Prod.fst).sum ∧
      (min_psa_ratio ≤ 0 → prior_sum res.node.m_children = 1) := by
  obtain ⟨hne, hsum, hnn⟩ :=
    candidate_list_normalised cfg state (network.get_output state) hpol hpass
  obtain ⟨res, mp, hc, hret, hmax, hch⟩ :=
    create_children_links cfg network (UCTNode.new vertex policy) nodecount state eval variance
      min_psa_ratio hp rfl (by simpa [UCTNode.new] using hr) hne
  have hperm := stable_sort_reversed_perm (candidate_list cfg state (network.get_output state))
  have hmp_pos : 0 < mp := by
    by_contra hle
    have hle : mp ≤ 0 := not_lt.mp hle
    have hz : ((candidate_list cfg state (network.get_output state)).map Prod.fst).sum = 0 := by
      apply List.sum_eq_zero
      intro x hx
      simp only [List.mem_map] at hx
      obtain ⟨p, hp, rfl⟩ := hx
      exact le_antisymm (le_trans (hmax.2 p hp) hle) (hnn p hp)
    rw [hz] at hsum
    exact zero_ne_one hsum
  have hwin : in_window (mp * min_psa_ratio) (mp * (UCTNode.new vertex policy).m_min_psa_ratio_children)
      (stable_sort_reversed (candidate_list cfg state (network.get_output state))) =
      (stable_sort_reversed (candidate_list cfg state (network.get_output state))).filter
        fun p => !decide (p.1 < mp * min_psa_ratio) := by
    unfold in_window
    apply List.filter_congr
    intro p hp
    have h1 : p.1 ≤ mp := hmax.2 p (hperm.subset hp)
    have h2 : p.1 < mp * (UCTNode.new vertex policy).m_min_psa_ratio_children := by
      have h3 : (UCTNode.new vertex policy).m_min_psa_ratio_children = 2 := rfl
      rw [h3]
      linarith
    by_cases h4 : p.1 < mp * min_psa_ratio
    · simp [h2, h4, not_le.mpr h4]
    · simp [h2, h4, not_lt.mp h4]
  have hsplit := sum_filter_add_sum_filter_not
    (stable_sort_reversed (candidate_list cfg state (network.get_output state)))
    (fun p => decide (p.1 < mp * min_psa_ratio))
  have hlow : (((stable_sort_reversed (candidate_list cfg state (network.get_output state))).filter
      fun p => decide (p.1 < mp * min_psa_ratio)).map Prod.fst).sum =
      (((candidate_list cfg state (network.get_output state)).filter
        fun p => decide (p.1 < mp * min_psa_ratio)).map Prod.fst).sum :=
    ((hperm.filter _).map _).sum_eq
  have hall : ((stable_sort_reversed (candidate_list cfg state
      (network.get_output state))).map Prod.fst).sum = 1 := by
    rw [(hperm.map _).sum_eq, hsum]
  have hchildren : prior_sum res.node.m_children = 1 -
      (((candidate_list cfg state (network.get_output state)).filter fun p =>
        decide (p.1 < mp * min_psa_ratio)).map Prod.fst).sum := by
    rw [hch, hwin]
    simp only [UCTNode.new, List.nil_append]
    rw [prior_sum_map_new_child, ← hlow]
    linarith
  refine ⟨res, mp, hc, hret, hmax, hsum, hchildren, ?_⟩
  intro hr0
  rw [hchildren]
  have hnone : (candidate_list cfg state (network.get_output state)).filter
      (fun p => decide (p.1 < mp * min_psa_ratio)) = [] := by
    rw [List.filter_eq_nil_iff]
    intro p hp
    have h1 : 0 ≤ p.1 := hnn p hp
    have h2 : mp * min_psa_ratio ≤ 0 := mul_nonpos_of_nonneg_of_nonpos hmp_pos.le hr0
    simp only [decide_eq_true_eq, not_lt]
    linarith
  rw [hnone]
  simp

/-- The amended C8 on the 3×3 board with policy 1/10 everywhere and threshold 0:
the expansion succeeds and the children's priors sum to 1. -/
theorem create_children_prior_sum_witness :
    ∃ res,
      (UCTNode.new 0 1).create_children example_config
          (example_network (fun _ => 1/10) (1/10) (1/2)) 0 (example_state 0) 0 0 0 = some res ∧
      res.ret = true ∧ prior_sum res.node.m_children = 1 := by
  obtain ⟨res, _, h1, h2, _, _, _, h6⟩ :=
    create_children_prior_sum example_config (example_network (fun _ => 1/10) (1/10) (1/2))
      0 1 0 (example_state 0) 0 0 0 (by decide) (by norm_num)
      (by intro i; simp [example_network]) (by simp [example_network])
  exact ⟨res, h1, h2, h6 le_rfl⟩

/-! ## Theorems: online variance -/

/-- The squared deviations from any centre, expanded. -/
theorem sum_sq_dev (l : List ℚ) (m : ℚ) :
    (l.map fun v => (v - m) ^ 2).sum = sum_sq l - 2 * m * l.sum + (l.length : ℚ) * m ^ 2 := by
  induction l with
  | nil => simp [sum_sq]
  | cons a l ih =>
    simp only [List.map_cons, List.sum_cons, ih, sum_sq, List.length_cons]
    push_cast
    ring

/-- The squared deviations from the mean are the sum of squares less the
squared sum over the length. -/
theorem sum_sq_dev_mean (l : List ℚ) :
    (l.map fun v => (v - arithmetic_mean l) ^ 2).sum = sum_sq l - l.sum ^ 2 / (l.length : ℚ) := by
  rw [sum_sq_dev]
  unfold arithmetic_mean
  by_cases h : (l.length : ℚ) = 0
  · have hl : l = [] := by
      have : l.length = 0 := by exact_mod_cast h
      exact List.length_eq_zero.mp this
    subst hl
    simp
  · field_simp
    ring

/-- One `update` keeps the Welford accumulator equal to the sum of squares less
the squared sum over the number of visits. -/
theorem update_welford (n : UCTNode) (l : List ℚ) (v : ℚ)
    (hv : n.m_visits = l.length) (hb : n.m_blackevals = l.sum)
    (hs : n.m_squared_eval_diff = sum_sq l - l.sum ^ 2 / (l.length : ℚ)) :
    (n.update v).m_visits = (l ++ [v]).length ∧
    (n.update v).m_blackevals = (l ++ [v]).sum ∧
    (n.update v).m_squared_eval_diff =
      sum_sq (l ++ [v]) - (l ++ [v]).sum ^ 2 / ((l ++ [v]).length : ℚ) := by
  refine ⟨?_, ?_, ?_⟩
  · simp [UCTNode.update, UCTNode.accumulate_eval, hv]
  · simp [UCTNode.update, UCTNode.accumulate_eval, hb]
  · simp only [UCTNode.update, UCTNode.accumulate_eval, hs, hv, hb, sum_sq, List.map_append,
      List.sum_append, List.map_cons, List.map_nil, List.sum_cons, List.sum_nil, add_zero,
      List.length_append, List.length_cons, List.length_nil, zero_add]
    cases l with
    | nil => simp
    | cons a t =>
      have hpos : (0 : ℤ) < ((a :: t).length : ℤ) := by simp
      have hq : ((a :: t).length : ℚ) ≠ 0 := by
        rw [List.length_cons]; push_cast; positivity
      have hq1 : ((a :: t).length : ℚ) + 1 ≠ 0 := by positivity
      simp only [gt_iff_lt, hpos, if_true]
      push_cast
      field_simp
      ring

/-- A serial run of `update` keeps the Welford accumulator. -/
theorem update_all_welford (evals : List ℚ) (n : UCTNode) (l : List ℚ)
    (hv : n.m_visits = l.length) (hb : n.m_blackevals = l.sum)
    (hs : n.m_squared_eval_diff = sum_sq l - l.sum ^ 2 / (l.length : ℚ)) :
    (n.update_all evals).m_visits = (l ++ evals).length ∧
    (n.update_all evals).m_squared_eval_diff =
      sum_sq (l ++ evals) - (l ++ evals).sum ^ 2 / ((l ++ evals).length : ℚ) := by
  induction evals generalizing n l with
  | nil => simpa [UCTNode.update_all] using ⟨hv, hs⟩
  | cons v vs ih =>
    obtain ⟨h1, h2, h3⟩ := update_welford n l v hv hb hs
    have := ih (n.update v) (l ++ [v]) h1 h2 h3
    simpa [UCTNode.update_all] using this

/-- C11: for every sequence of at least two evaluations fed serially through
`update` into a node with zero visits, zero evaluation sum and zero squared
difference, `get_eval_variance(d)` is the unbiased sample variance of the
sequence (squared deviations from the mean, summed, over `n - 1`), whatever
the default `d`. -/
theorem get_eval_variance_sample (n : UCTNode) (evals : List ℚ) (d : ℚ)
    (hv : n.m_visits = 0) (hb : n.m_blackevals = 0) (hs : n.m_squared_eval_diff = 0)
    (hlen : 2 ≤ evals.length) :
    (n.update_all evals).get_eval_variance d = sample_variance evals := by
  obtain ⟨h1, h2⟩ := update_all_welford evals n [] (by simpa using hv) (by simpa using hb)
    (by simpa [sum_sq] using hs)
  simp only [List.nil_append] at h1 h2
  unfold UCTNode.get_eval_variance sample_variance
  have hgt : (n.update_all evals).m_visits > 1 := by rw [h1]; omega
  rw [if_pos hgt, h2, h1, sum_sq_dev_mean]
  push_cast
  rfl

/-- C11 at the evaluations 1/10, 2/5, 3/5, 9/10 on a fresh node: the variance
is 17/150 for the defaults 0 and 7. -/
theorem get_eval_variance_sample_witness :
    ((UCTNode.new 0 1).update_all [1/10, 2/5, 3/5, 9/10]).get_eval_variance 0 =
      sample_variance [1/10, 2/5, 3/5, 9/10] ∧
    ((UCTNode.new 0 1).update_all [1/10, 2/5, 3/5, 9/10]).get_eval_variance 7 = 17/150 ∧
    sample_variance [1/10, 2/5, 3/5, 9/10] = 17/150 := by
  have h0 := get_eval_variance_sample (UCTNode.new 0 1) [1/10, 2/5, 3/5, 9/10] 0 rfl rfl rfl
    (by decide)
  have h7 := get_eval_variance_sample (UCTNode.new 0 1) [1/10, 2/5, 3/5, 9/10] 7 rfl rfl rfl
    (by decide)
  have hsv : sample_variance [1/10, 2/5, 3/5, 9/10] = 17/150 := by
    norm_num [sample_variance, arithmetic_mean]
  exact ⟨h0, by rw [h7, hsv], hsv⟩

/-! ## Theorems: evaluation and Beta parameters -/

/-- What `get_raw_eval` returns when its assertion holds. -/
theorem get_raw_eval_eq (cfg : Config) (n : UCTNode) (tomove vl : Int)
    (hpos : 0 < n.m_visits + vl) :
    n.get_raw_eval cfg tomove vl =
      some (if tomove = cfg.WHITE then
          1 - (n.m_blackevals + (vl : ℚ)) / ((n.m_visits + vl : Int) : ℚ)
        else n.m_blackevals / ((n.m_visits + vl : Int) : ℚ)) := by
  unfold UCTNode.get_raw_eval UCTNode.get_visits UCTNode.get_blackevals
  simp only [assert, gt_iff_lt, hpos, if_true, Option.some_bind]
  split_ifs <;> rfl

/-- C12, as stated, fails under virtual loss: for a node with one visit,
evaluation sum 1/2 and virtual loss 3, `get_eval` is defined and is 1/8 for
Black and 1/8 for White; the two add up to 1/4, not to 1. -/
theorem get_eval_sum_with_virtual_loss :
    (0 : Int) < (example_node 1 (1/2) 3).m_visits +
      (example_node 1 (1/2) 3).m_virtual_loss ∧
    (example_node 1 (1/2) 3).get_eval example_config example_config.BLACK = some (1/8) ∧
    (example_node 1 (1/2) 3).get_eval example_config example_config.WHITE = some (1/8) ∧
    (1/8 : ℚ) + 1/8 ≠ 1 := by
  refine ⟨by decide, by decide!, by decide!, by norm_num⟩

/-- C12 (amended): for every node on which `get_eval` is defined
(`visits + virtual_loss > 0`), `get_eval(BLACK)` and `get_eval(WHITE)` return,
and their sum is `1 - virtual_loss / (visits + virtual_loss)`: the virtual
losses count against both colours. The sum is 1 when the virtual loss is 0. -/
theorem get_eval_sum (cfg : Config) (n : UCTNode) (hcol : cfg.BLACK ≠ cfg.WHITE)
    (hpos : 0 < n.m_visits + n.m_virtual_loss) :
    ∃ eb ew, n.get_eval cfg cfg.BLACK = some eb ∧ n.get_eval cfg cfg.WHITE = some ew ∧
      eb + ew = 1 - (n.m_virtual_loss : ℚ) / ((n.m_visits + n.m_virtual_loss : Int) : ℚ) ∧
      (n.m_virtual_loss = 0 → eb + ew = 1) := by
  have hb := get_raw_eval_eq cfg n cfg.BLACK n.m_virtual_loss hpos
  have hw := get_raw_eval_eq cfg n cfg.WHITE n.m_virtual_loss hpos
  rw [if_neg hcol] at hb
  rw [if_pos rfl] at hw
  have hne : ((n.m_visits + n.m_virtual_loss : Int) : ℚ) ≠ 0 := by
    have : (n.m_visits + n.m_virtual_loss : Int) ≠ 0 := by omega
    exact_mod_cast this
  have hsum : n.m_blackevals / ((n.m_visits + n.m_virtual_loss : Int) : ℚ) +
      (1 - (n.m_blackevals + (n.m_virtual_loss : ℚ)) /
        ((n.m_visits + n.m_virtual_loss : Int) : ℚ)) =
      1 - (n.m_virtual_loss : ℚ) / ((n.m_visits + n.m_virtual_loss : Int) : ℚ) := by
    field_simp
    ring
  refine ⟨_, _, hb, hw, hsum, ?_⟩
  intro hz
  rw [hsum, hz]
  simp

/-- The amended C12 at a node with four visits, evaluation sum 3 and no virtual
loss: the evaluations 3/4 and 1/4 add up to 1. -/
theorem get_eval_sum_witness :
    ∃ eb ew,
      (example_node 4 3 0).get_eval
        example_config example_config.BLACK = some eb ∧
      (example_node 4 3 0).get_eval
        example_config example_config.WHITE = some ew ∧
      eb + ew = 1 := by
  obtain ⟨eb, ew, h1, h2, _, h4⟩ := get_eval_sum example_config
    (example_node 4 3 0) (by decide) (by decide)
  exact ⟨eb, ew, h1, h2, h4 rfl⟩

/-- C13: for both colours and every `vl` with `visits + vl > 0` (every
`vl ≥ 0` on a visited node among them), `get_raw_eval(color, vl)` returns the
colour's accumulated wins over `visits + vl`: `black_evals / (visits + vl)` for
Black and `(visits - black_evals) / (visits + vl)` for White, so the `vl`
virtual games count as lost. -/
theorem get_raw_eval_virtual_loss (cfg : Config) (n : UCTNode) (vl : Int)
    (hcol : cfg.BLACK ≠ cfg.WHITE) (hpos : 0 < n.m_visits + vl) :
    n.get_raw_eval cfg cfg.BLACK vl =
      some (n.m_blackevals / ((n.m_visits : ℚ) + (vl : ℚ))) ∧
    n.get_raw_eval cfg cfg.WHITE vl =
      some (((n.m_visits : ℚ) - n.m_blackevals) / ((n.m_visits : ℚ) + (vl : ℚ))) := by
  have hb := get_raw_eval_eq cfg n cfg.BLACK vl hpos
  have hw := get_raw_eval_eq cfg n cfg.WHITE vl hpos
  rw [if_neg hcol] at hb
  rw [if_pos rfl] at hw
  have hne : (n.m_visits : ℚ) + (vl : ℚ) ≠ 0 := by
    have : (n.m_visits + vl : Int) ≠ 0 := by omega
    exact_mod_cast this
  refine ⟨by rw [hb]; push_cast; rfl, ?_⟩
  rw [hw]
  push_cast
  congr 1
  field_simp

/-- C13 at a node with four visits, evaluation sum 3 and `vl = 3`: Black gets
3/7 and White 1/7. -/
theorem get_raw_eval_virtual_loss_witness :
    (example_node 4 3 0).get_raw_eval
        example_config example_config.BLACK 3 = some (3/7) ∧
    (example_node 4 3 0).get_raw_eval
        example_config example_config.WHITE 3 = some (1/7) := by
  obtain ⟨h1, h2⟩ := get_raw_eval_virtual_loss example_config
    (example_node 4 3 0) 3 (by decide) (by decide)
  constructor
  · rw [h1]; norm_num [example_node]
  · rw [h2]; norm_num [example_node]

/-- C14: for every node, `get_beta_param(WHITE)` is `get_beta_param(BLACK)`
with the two components swapped. -/
theorem get_beta_param_swap (cfg : Config) (n : UCTNode) (hcol : cfg.BLACK ≠ cfg.WHITE) :
    (n.get_beta_param cfg cfg.WHITE).1 = (n.get_beta_param cfg cfg.BLACK).2 ∧
    (n.get_beta_param cfg cfg.WHITE).2 = (n.get_beta_param cfg cfg.BLACK).1 := by
  unfold UCTNode.get_beta_param UCTNode.get_distribution
  simp only [if_neg hcol, if_true]
  constructor
  · ring_nf
  · ring_nf

/-- C14 at a node with net evaluation 3/5 and net variance 1/25: the
parameters are (4, 3) for Black and (3, 4) for White. -/
theorem get_beta_param_swap_witness :
    (example_net_node (3/5) (1/25)).get_beta_param example_config example_config.BLACK = (4, 3) ∧
    (example_net_node (3/5) (1/25)).get_beta_param example_config example_config.WHITE = (3, 4) := by
  have h := get_beta_param_swap example_config
    (example_net_node (3/5) (1/25)) (by decide)
  have hb : (example_net_node (3/5) (1/25)).get_beta_param example_config example_config.BLACK = (4, 3) := by decide!
  refine ⟨hb, ?_⟩
  rw [Prod.ext_iff, h.1, h.2, hb]
  exact ⟨rfl, rfl⟩

/-! ### Rounding and the two Beta parameter functions -/

/-- The halving search finds the binary exponent of a value `q ≥ 1` below `2 ^ fuel`. -/
theorem exponent_up_spec (fuel : Nat) (q : ℚ) (h1 : 1 ≤ q) (h2 : q < 2 ^ fuel) :
    (2 : ℚ) ^ (exponent_up fuel q) ≤ q ∧ q < 2 ^ (exponent_up fuel q + 1) := by
  induction fuel generalizing q with
  | zero =>
    rw [pow_zero] at h2
    exact absurd h1 (not_le.mpr h2)
  | succ k ih =>
    unfold exponent_up
    split_ifs with h
    · rw [zpow_zero, zero_add, zpow_one]
      exact ⟨h1, h⟩
    · rw [pow_succ] at h2
      obtain ⟨ha, hb⟩ := ih (q / 2) (by linarith) (by linarith)
      simp only [zpow_add_one₀ (two_ne_zero : (2 : ℚ) ≠ 0)] at hb ⊢
      constructor <;> linarith

/-- The doubling search finds the binary exponent of a value `0 < q < 2` that
`fuel` doublings bring to 1 or above. -/
theorem exponent_down_spec (fuel : Nat) (q : ℚ) (h0 : 0 < q) (h2 : q < 2)
    (h1 : 1 ≤ q * 2 ^ fuel) :
    (2 : ℚ) ^ (exponent_down fuel q) ≤ q ∧ q < 2 ^ (exponent_down fuel q + 1) := by
  induction fuel generalizing q with
  | zero =>
    rw [pow_zero, mul_one] at h1
    unfold exponent_down
    rw [zpow_zero, zero_add, zpow_one]
    exact ⟨h1, h2⟩
  | succ k ih =>
    unfold exponent_down
    split_ifs with h
    · rw [zpow_zero, zero_add, zpow_one]
      exact ⟨h, h2⟩
    · obtain ⟨ha, hb⟩ := ih (q * 2) (by linarith) (by linarith)
        (by rw [pow_succ] at h1; linarith)
      rw [zpow_add_one₀ two_ne_zero] at hb
      rw [sub_add_cancel, zpow_sub_one₀ two_ne_zero]
      constructor <;> linarith

/-- The binary exponent of a non-zero value brackets it: `2 ^ e ≤ |q| < 2 ^ (e + 1)`. -/
theorem binary_exponent_spec (q : ℚ) (hq : q ≠ 0) :
    (2 : ℚ) ^ (binary_exponent q) ≤ |q| ∧ |q| < 2 ^ (binary_exponent q + 1) := by
  have hden : (1 : ℚ) ≤ q.den := by exact_mod_cast q.den_pos
  have habs : |q| = (q.num.natAbs : ℚ) / q.den := by
    conv_lhs => rw [← Rat.num_div_den q]
    rw [abs_div, Nat.abs_cast, Nat.cast_natAbs, Int.cast_abs]
  have hnum : (1 : ℚ) ≤ q.num.natAbs := by
    have : 0 < q.num.natAbs := Int.natAbs_pos.mpr (Rat.num_ne_zero.mpr hq)
    exact_mod_cast this
  unfold binary_exponent
  split_ifs with h
  · apply exponent_up_spec _ _ h
    have h1 : |q| ≤ (q.num.natAbs : ℚ) := by
      rw [habs]
      exact div_le_self (by positivity) hden
    have h2 : (q.num.natAbs : ℚ) < 2 ^ q.num.natAbs := by
      exact_mod_cast Nat.lt_two_pow q.num.natAbs
    linarith
  · apply exponent_down_spec _ _ (abs_pos.mpr hq) (by linarith)
    have h2 : (q.den : ℚ) < 2 ^ q.den := by exact_mod_cast Nat.lt_two_pow q.den
    have hpos : (0 : ℚ) < q.den := by linarith
    rw [habs, div_mul_eq_mul_div, le_div_iff₀ hpos]
    nlinarith

/-- The rounded integer is within one half of the value. -/
theorem round_half_even_near (q : ℚ) : |(round_half_even q : ℚ) - q| ≤ 1 / 2 := by
  have hf := Int.floor_le q
  have hl := Int.lt_floor_add_one q
  unfold round_half_even
  simp only
  split_ifs with h1 h2 h3
  · rw [abs_le]; constructor <;> linarith
  · push_cast; rw [abs_le]; constructor <;> linarith
  · rw [abs_le]; constructor <;> linarith
  · push_cast; rw [abs_le]; constructor <;> linarith

/-- The rounded value is within half a unit in the last place of the value. -/
theorem round_to_format_near (p : Nat) (emin : Int) (q : ℚ) :
    |round_to_format p emin q - q| ≤ 2 ^ (max (binary_exponent q) emin - (p - 1)) / 2 := by
  unfold round_to_format
  simp only
  have hpos : (0 : ℚ) < 2 ^ (max (binary_exponent q) emin - ((p : Int) - 1)) :=
    zpow_pos (by norm_num) _
  generalize (2 : ℚ) ^ (max (binary_exponent q) emin - ((p : Int) - 1)) = ulp at hpos ⊢
  have h := round_half_even_near (q / ulp)
  have he : (round_half_even (q / ulp) : ℚ) * ulp - q
      = ((round_half_even (q / ulp) : ℚ) - q / ulp) * ulp := by
    field_simp
  rw [he, abs_mul, abs_of_pos hpos]
  calc |(round_half_even (q / ulp) : ℚ) - q / ulp| * ulp ≤ 1 / 2 * ulp :=
        mul_le_mul_of_nonneg_right h hpos.le
    _ = ulp / 2 := by ring

/-- The literal `0.8f` is the `float` nearest to 4/5, and it is above 4/5. -/
theorem literal_0_8f_eq : to_float (4 / 5) = literal_0_8f ∧ 4 / 5 < literal_0_8f := by
  refine ⟨by decide!, by norm_num [literal_0_8f]⟩

/-- With exact arithmetic `get_beta_param_in` is `get_beta_param`. -/
theorem get_beta_param_in_exact (cfg : Config) (n : UCTNode) (tomove : Int) :
    n.get_beta_param_in cfg Arith.exact tomove = n.get_beta_param cfg tomove := rfl

/-- In exact arithmetic, for every node without a distribution override and
every colour, `get_beta_param` and `get_net_beta_param` return the same pair;
both use the variance raised to at least 1e-9. -/
theorem get_beta_param_eq_net (cfg : Config) (n : UCTNode) (tomove : Int)
    (hnone : n.m_distribution = none) :
    n.get_beta_param cfg tomove = n.get_net_beta_param cfg Arith.exact tomove ∧
    n.get_beta_param cfg tomove =
      (1 + n.get_net_eval cfg Arith.exact tomove *
          ((n.get_net_eval cfg Arith.exact tomove *
              (1 - n.get_net_eval cfg Arith.exact tomove)) /
            max n.m_net_variance MIN_VARIANCE - 1),
        1 + (1 - n.get_net_eval cfg Arith.exact tomove) *
          ((n.get_net_eval cfg Arith.exact tomove *
              (1 - n.get_net_eval cfg Arith.exact tomove)) /
            max n.m_net_variance MIN_VARIANCE - 1)) := by
  have hclamp1 : (if n.m_net_variance > MIN_VARIANCE then n.m_net_variance else MIN_VARIANCE) =
      max n.m_net_variance MIN_VARIANCE := by
    split_ifs with h
    · exact (max_eq_left h.le).symm
    · exact (max_eq_right (not_lt.mp h)).symm
  have hclamp2 : (if n.m_net_variance < MIN_VARIANCE then MIN_VARIANCE else n.m_net_variance) =
      max n.m_net_variance MIN_VARIANCE := by
    split_ifs with h
    · exact (max_eq_right h.le).symm
    · exact (max_eq_left (not_lt.mp h)).symm
  have hnet : n.get_net_beta_param cfg Arith.exact tomove =
      (1 + n.get_net_eval cfg Arith.exact tomove *
          ((n.get_net_eval cfg Arith.exact tomove *
              (1 - n.get_net_eval cfg Arith.exact tomove)) /
            max n.m_net_variance MIN_VARIANCE - 1),
        1 + (1 - n.get_net_eval cfg Arith.exact tomove) *
          ((n.get_net_eval cfg Arith.exact tomove *
              (1 - n.get_net_eval cfg Arith.exact tomove)) /
            max n.m_net_variance MIN_VARIANCE - 1)) := by
    unfold UCTNode.get_net_beta_param UCTNode.get_net_variance
    simp only [Arith.exact, id, hclamp1]
  have hbeta : n.get_beta_param cfg tomove =
      (1 + n.get_net_eval cfg Arith.exact tomove *
          ((n.get_net_eval cfg Arith.exact tomove *
              (1 - n.get_net_eval cfg Arith.exact tomove)) /
            max n.m_net_variance MIN_VARIANCE - 1),
        1 + (1 - n.get_net_eval cfg Arith.exact tomove) *
          ((n.get_net_eval cfg Arith.exact tomove *
              (1 - n.get_net_eval cfg Arith.exact tomove)) /
            max n.m_net_variance MIN_VARIANCE - 1)) := by
    unfold UCTNode.get_beta_param UCTNode.get_distribution UCTNode.get_net_eval
    simp only [hnone, Option.isSome_none, Bool.false_eq_true, if_false, Arith.exact, id]
    by_cases hw : tomove = cfg.WHITE
    · simp only [hw, if_true, hclamp2]
    · simp only [hw, if_false, hclamp2]
  exact ⟨by rw [hbeta, hnet], hbeta⟩

/-- C15 fails on the code: for the node without override whose evaluator output
is the mean 1/16 and the variance 9/64 (both are `float` values), asked for
Black, `get_beta_param` returns (16165547/2^24, 7602175/2^24) and
`get_net_beta_param` returns (16165547/2^24, 29/64). The second components
differ: `get_net_beta_param` evaluates the quotient and what follows in
`double` and rounds once to `float`, `get_beta_param` rounds every operation to
`float`. With exact arithmetic both return (185/192, 29/64). -/
theorem get_beta_param_differs_from_net :
    (example_net_node (1/16) (9/64)).m_distribution = none ∧
    to_float (1/16) = 1/16 ∧ to_float (9/64) = 9/64 ∧
    (example_net_node (1/16) (9/64)).get_beta_param_in example_config Arith.ieee
        example_config.BLACK = (16165547/16777216, 7602175/16777216) ∧
    (example_net_node (1/16) (9/64)).get_net_beta_param example_config Arith.ieee
        example_config.BLACK = (16165547/16777216, 29/64) ∧
    (example_net_node (1/16) (9/64)).get_beta_param_in example_config Arith.ieee
        example_config.BLACK ≠
      (example_net_node (1/16) (9/64)).get_net_beta_param example_config Arith.ieee
        example_config.BLACK ∧
    (example_net_node (1/16) (9/64)).get_beta_param_in example_config Arith.exact
        example_config.BLACK = (185/192, 29/64) ∧
    (example_net_node (1/16) (9/64)).get_net_beta_param example_config Arith.exact
        example_config.BLACK = (185/192, 29/64) := by
  refine ⟨rfl, by decide!, by decide!, by decide!, by decide!, by decide!, by decide!,
    by decide!⟩

/-! ## Theorems: order of the children -/

/-- One call of `link_nodelist` keeps the children ordered. -/
theorem link_nodelist_invariant (nodelist : List PolicyVertexPair) (hne : nodelist ≠ [])
    (n : UCTNode) (nodecount : Int) (nodelist2 : List PolicyVertexPair) (r : ℚ)
    (hsort : stable_sort_reversed nodelist2 = stable_sort_reversed nodelist)
    (hdom : 0 ≤ r ∨ ∀ p ∈ nodelist, 0 ≤ p.1)
    (hinv : link_invariant (stable_sort_reversed nodelist)
      ((stable_sort_reversed nodelist).headD (0, 0)).1 n)
    (res : LinkResult) (h : n.link_nodelist nodecount nodelist2 r = some res) :
    link_invariant (stable_sort_reversed nodelist)
        ((stable_sort_reversed nodelist).headD (0, 0)).1 res.node ∧
      res.nodelist = stable_sort_reversed nodelist := by
  have hperm := stable_sort_reversed_perm nodelist
  have hne2 : nodelist2 ≠ [] := by
    intro h2
    rw [h2] at hsort
    have : stable_sort_reversed nodelist = [] := by rw [← hsort]; rfl
    rw [this] at hperm
    exact hne hperm.symm.eq_nil
  have hpre : r < n.m_min_psa_ratio_children := by
    by_contra hc
    simp [UCTNode.link_nodelist, assert, hc] at h
  rw [link_nodelist_eq n nodecount nodelist2 r hne2 hpre, hsort] at h
  simp only [Option.some.injEq] at h
  subst h
  refine ⟨?_, rfl⟩
  obtain ⟨hpw, hneg, hlow⟩ := hinv
  have hsorted := stable_sort_reversed_pairwise nodelist
  have hle : ∀ a b : PolicyVertexPair, not_after b a → b.1 ≤ a.1 := by
    intro a b hab
    unfold not_after pair_lt at hab
    push_neg at hab
    exact hab.1
  set sorted := stable_sort_reversed nodelist with hsd
  set m := (sorted.headD (0, 0)).1 with hm
  have hwin : ∀ c ∈ (in_window (m * r) (m * n.m_min_psa_ratio_children) sorted).map new_child,
      ∃ q ∈ sorted, c = new_child q ∧ m * r ≤ q.1 ∧ q.1 < m * n.m_min_psa_ratio_children := by
    intro c hc
    simp only [List.mem_map, in_window, List.mem_filter, decide_eq_true_eq] at hc
    obtain ⟨q, ⟨hq, h1, h2⟩, rfl⟩ := hc
    exact ⟨q, hq, rfl, h1, h2⟩
  have hempty : m < 0 →
      (in_window (m * r) (m * n.m_min_psa_ratio_children) sorted).map new_child = [] := by
    intro hm0
    rw [List.map_eq_nil_iff]
    unfold in_window
    rw [List.filter_eq_nil_iff]
    intro q _
    simp only [decide_eq_true_eq, not_and, not_lt]
    intro h1
    have : m * n.m_min_psa_ratio_children < m * r := mul_lt_mul_of_neg_left hpre hm0
    linarith
  refine ⟨?_, ?_, ?_⟩
  · simp only
    rw [List.pairwise_append]
    refine ⟨hpw, ?_, ?_⟩
    · simp only [in_window, List.pairwise_map]
      exact (hsorted.filter _).imp fun {a b} hab => hle a b hab
    · intro a ha b hb
      obtain ⟨q, hq, rfl, _, h2⟩ := hwin b hb
      exact hlow a ha q hq h2
  · intro hm0
    simp only
    rw [hneg hm0, hempty hm0]
    rfl
  · intro c hc p hp hlt
    simp only at hc hlt
    by_cases hm0 : m < 0
    · rw [hneg hm0, hempty hm0] at hc
      simp at hc
    · have hm1 : 0 ≤ m := not_lt.mp hm0
      split_ifs at hlt with hany
      · rcases List.mem_append.mp hc with hold | hnew
        · apply hlow c hold p hp
          have : m * r ≤ m * n.m_min_psa_ratio_children :=
            mul_le_mul_of_nonneg_left hpre.le hm1
          linarith
        · obtain ⟨q, _, rfl, h1, _⟩ := hwin c hnew
          simp only [new_child, UCTNodePointer.get_policy]
          linarith
      · exfalso
        rw [mul_zero] at hlt
        rcases hdom with h0 | hnn
        · have hnot : ¬ p.1 < m * r := by
            intro hp2
            apply hany
            exact List.any_eq_true.mpr ⟨p, hp, by simpa using hp2⟩
          have : 0 ≤ m * r := mul_nonneg hm1 h0
          linarith
        · have := hnn p (hperm.subset hp)
          linarith

/-- A run of `link_nodelist` calls keeps the children ordered. -/
theorem link_all_invariant (nodelist : List PolicyVertexPair) (hne : nodelist ≠ [])
    (rs : List ℚ) (n : UCTNode) (nodecount : Int) (nodelist2 : List PolicyVertexPair)
    (hsort : stable_sort_reversed nodelist2 = stable_sort_reversed nodelist)
    (hdom : (∀ r ∈ rs, 0 ≤ r) ∨ ∀ p ∈ nodelist, 0 ≤ p.1)
    (hinv : link_invariant (stable_sort_reversed nodelist)
      ((stable_sort_reversed nodelist).headD (0, 0)).1 n)
    (res : LinkResult) (h : link_all n nodecount nodelist2 rs = some res) :
    link_invariant (stable_sort_reversed nodelist)
      ((stable_sort_reversed nodelist).headD (0, 0)).1 res.node := by
  induction rs generalizing n nodecount nodelist2 with
  | nil =>
    simp only [link_all, Option.some.injEq] at h
    subst h
    exact hinv
  | cons r rs ih =>
    simp only [link_all, Option.bind_eq_some] at h
    obtain ⟨res1, h1, h2⟩ := h
    have hdom1 : 0 ≤ r ∨ ∀ p ∈ nodelist, 0 ≤ p.1 := by
      rcases hdom with hd | hd
      · exact Or.inl (hd r (List.mem_cons_self _ _))
      · exact Or.inr hd
    have hdom2 : (∀ r ∈ rs, 0 ≤ r) ∨ ∀ p ∈ nodelist, 0 ≤ p.1 := by
      rcases hdom with hd | hd
      · exact Or.inl fun x hx => hd x (List.mem_cons_of_mem _ hx)
      · exact Or.inr hd
    obtain ⟨hinv1, hnl⟩ :=
      link_nodelist_invariant nodelist hne n nodecount nodelist2 r hsort hdom1 hinv res1 h1
    refine ih res1.node res1.nodecount res1.nodelist ?_ hdom2 hinv1 h2
    rw [hnl]
    exact stable_sort_reversed_idem nodelist

/-- On an empty candidate vector no call links a child. -/
theorem link_all_nil (rs : List ℚ) (n : UCTNode) (nodecount : Int) (res : LinkResult)
    (h : link_all n nodecount [] rs = some res) : res.node.m_children = n.m_children := by
  induction rs generalizing n nodecount with
  | nil =>
    simp only [link_all, Option.some.injEq] at h
    subst h
    rfl
  | cons r rs ih =>
    simp only [link_all, Option.bind_eq_some] at h
    obtain ⟨res1, h1, h2⟩ := h
    simp only [UCTNode.link_nodelist, assert, Option.bind_eq_some, List.isEmpty_nil,
      if_true] at h1
    obtain ⟨_, _, h1⟩ := h1
    simp only [Option.some.injEq] at h1
    subst h1
    exact ih n nodecount h2

/-- C19: starting from a fresh node, after any sequence of `link_nodelist`
calls on the same candidate list with strictly decreasing thresholds, each
call satisfying its precondition (the run returns), and thresholds and priors
from the domain of the data model (no threshold negative, or no prior
negative: either suffices), every child's prior is at least the prior of every
child after it, the next one in particular. -/
theorem link_all_children_sorted (vertex : Int) (policy : ℚ) (nodecount : Int)
    (nodelist : List PolicyVertexPair) (rs : List ℚ)
    (_hdec : rs.Chain' (fun a b => b < a))
    (hdom : (∀ r ∈ rs, 0 ≤ r) ∨ ∀ p ∈ nodelist, 0 ≤ p.1)
    (res : LinkResult)
    (h : link_all (UCTNode.new vertex policy) nodecount nodelist rs = some res) :
    res.node.m_children.Pairwise (fun a b => b.get_policy ≤ a.get_policy) ∧
    res.node.m_children.Chain' (fun a b => b.get_policy ≤ a.get_policy) := by
  have hpw : res.node.m_children.Pairwise (fun a b => b.get_policy ≤ a.get_policy) := by
    by_cases hne : nodelist = []
    · subst hne
      rw [link_all_nil rs _ nodecount res h]
      simp [UCTNode.new]
    · have hinv0 : link_invariant (stable_sort_reversed nodelist)
          ((stable_sort_reversed nodelist).headD (0, 0)).1 (UCTNode.new vertex policy) := by
        refine ⟨?_, ?_, ?_⟩ <;> simp [UCTNode.new]
      exact (link_all_invariant nodelist hne rs _ nodecount nodelist rfl hdom hinv0 res h).1
  exact ⟨hpw, List.Pairwise.chain' hpw⟩

/-- C19 at the candidates 3/5, 1/10, 3/10 with the thresholds 1/2, 1/4, 0: the
three calls return and link the priors 3/5, 3/10, 1/10 in this order. -/
theorem link_all_children_sorted_witness :
    ∃ res, link_all (UCTNode.new 0 1) 0 [(3/5, 1), (1/10, 2), (3/10, 3)] [1/2, 1/4, 0] =
        some res ∧
      res.node.m_children.map UCTNodePointer.pair = [(3/5, 1), (3/10, 3), (1/10, 2)] ∧
      res.node.m_children.Pairwise (fun a b => b.get_policy ≤ a.get_policy) ∧
      res.node.m_children.Chain' (fun a b => b.get_policy ≤ a.get_policy) := by
  have hev : (link_all (UCTNode.new 0 1) 0 [(3/5, 1), (1/10, 2), (3/10, 3)] [1/2, 1/4, 0]).map
      (fun res => res.node.m_children.map UCTNodePointer.pair) =
      some [(3/5, 1), (3/10, 3), (1/10, 2)] := by decide!
  cases hres : link_all (UCTNode.new 0 1) 0 [(3/5, 1), (1/10, 2), (3/10, 3)] [1/2, 1/4, 0] with
  | none => rw [hres] at hev; simp at hev
  | some res =>
    rw [hres] at hev
    simp only [Option.map_some', Option.some.injEq] at hev
    obtain ⟨h1, h2⟩ := link_all_children_sorted 0 1 0 [(3/5, 1), (1/10, 2), (3/10, 3)]
      [1/2, 1/4, 0] (by norm_num) (Or.inl (by norm_num)) res hres
    exact ⟨res, rfl, hev, h1, h2⟩

/-! ## Theorems: the best root child -/

/-- `NodeComp` decides `node_lt` on slots whose evaluation is defined when visited. -/
theorem NodeComp_eq (cfg : Config) (color : Int) (lcb : ℚ) (a b : UCTNodePointer)
    (ha : a.get_visits ≠ 0 → ∃ e, a.get_eval cfg color = some e)
    (hb : b.get_visits ≠ 0 → ∃ e, b.get_eval cfg color = some e) :
    NodeComp cfg color lcb a b = some (decide (node_lt cfg color a b)) := by
  unfold NodeComp node_lt
  by_cases hv : a.get_visits = b.get_visits
  · by_cases h0 : a.get_visits = 0
    · have hb0 : b.get_visits = 0 := by rw [← hv]; exact h0
      simp [h0, hb0]
    · obtain ⟨ea, hea⟩ := ha h0
      have hb0 : ¬ b.get_visits = 0 := by rw [← hv]; exact h0
      obtain ⟨eb, heb⟩ := hb hb0
      simp [hv, hb0, hea, heb]
  · simp only [ne_eq, hv, not_false_eq_true, if_true, false_and, or_false]

/-- The order of `NodeComp` is irreflexive. -/
theorem node_lt_irrefl (cfg : Config) (color : Int) (a : UCTNodePointer) :
    ¬ node_lt cfg color a a := by
  unfold node_lt
  rintro (h | ⟨_, h⟩)
  · exact lt_irrefl _ h
  · split_ifs at h <;> exact lt_irrefl _ h

/-- The order of `NodeComp` is transitive. -/
theorem node_lt_trans (cfg : Config) (color : Int) (a b c : UCTNodePointer)
    (hab : node_lt cfg color a b) (hbc : node_lt cfg color b c) : node_lt cfg color a c := by
  unfold node_lt at *
  rcases hab with hab | ⟨hab, hab2⟩
  · rcases hbc with hbc | ⟨hbc, _⟩
    · exact Or.inl (lt_trans hab hbc)
    · exact Or.inl (by rw [← hbc]; exact hab)
  · rcases hbc with hbc | ⟨hbc, hbc2⟩
    · exact Or.inl (by rw [hab]; exact hbc)
    · refine Or.inr ⟨hab.trans hbc, ?_⟩
      rw [← hab] at hbc2
      split_ifs at hab2 hbc2 ⊢
      · exact lt_trans hab2 hbc2
      · exact lt_trans hab2 hbc2

/-- The loop of `std::max_element` returns the index of an element that no
element of the range exceeds. -/
theorem max_element_loop_spec {α : Type} (lt : α → α → Prop) [DecidableRel lt]
    (hirr : ∀ a, ¬ lt a a) (htrans : ∀ a b c, lt a b → lt b c → lt a c)
    (comp : α → α → Option Bool) (whole : List α)
    (hcomp : ∀ a ∈ whole, ∀ b ∈ whole, comp a b = some (decide (lt a b)))
    (l pre : List α) (hw : whole = pre ++ l) (largest : Nat) (lv : α)
    (hlv : whole[largest]? = some lv) (hmax : ∀ y ∈ pre, ¬ lt lv y) :
    ∃ j v, max_element_loop comp l pre.length largest lv = some j ∧ whole[j]? = some v ∧
      ∀ y ∈ whole, ¬ lt v y := by
  induction l generalizing pre largest lv with
  | nil =>
    refine ⟨largest, lv, rfl, hlv, ?_⟩
    rw [hw, List.append_nil]
    exact hmax
  | cons x xs ih =>
    have hlvmem : lv ∈ whole := List.getElem?_mem hlv
    have hxmem : x ∈ whole := by rw [hw]; simp
    have hw2 : whole = (pre ++ [x]) ++ xs := by rw [hw]; simp
    have hlen : (pre ++ [x]).length = pre.length + 1 := by simp
    unfold max_element_loop
    rw [hcomp lv hlvmem x hxmem]
    simp only [Option.some_bind, decide_eq_true_eq]
    by_cases hlt : lt lv x
    · rw [if_pos hlt, ← hlen]
      apply ih (pre ++ [x]) hw2 pre.length x
      · rw [hw2, List.getElem?_append_left (by simp)]
        exact List.getElem?_concat_length pre x
      · intro y hy hxy
        rcases List.mem_append.mp hy with hy | hy
        · exact hmax y hy (htrans lv x y hlt hxy)
        · simp only [List.mem_singleton] at hy
          rw [hy] at hxy
          exact hirr x hxy
    · rw [if_neg hlt, ← hlen]
      apply ih (pre ++ [x]) hw2 largest lv hlv
      intro y hy
      rcases List.mem_append.mp hy with hy | hy
      · exact hmax y hy
      · simp only [List.mem_singleton] at hy
        rw [hy]
        exact hlt

/-- On a non-empty range `std::max_element` returns the index of an element
that no element of the range exceeds. -/
theorem max_element_spec {α : Type} (lt : α → α → Prop) [DecidableRel lt]
    (hirr : ∀ a, ¬ lt a a) (htrans : ∀ a b c, lt a b → lt b c → lt a c)
    (comp : α → α → Option Bool) (whole : List α) (hne : whole ≠ [])
    (hcomp : ∀ a ∈ whole, ∀ b ∈ whole, comp a b = some (decide (lt a b))) :
    ∃ j v, max_element comp whole = some j ∧ whole[j]? = some v ∧ ∀ y ∈ whole, ¬ lt v y := by
  cases whole with
  | nil => exact absurd rfl hne
  | cons a t =>
    have := max_element_loop_spec lt hirr htrans comp (a :: t) hcomp t [a] rfl 0 a (by simp)
      (by intro y hy; simp only [List.mem_singleton] at hy; rw [hy]; exact hirr a)
    simpa [max_element] using this

/-- C16: for every expanded node with at least one child whose visited
children have a defined `get_eval`, `get_best_root_child(color)` returns, and
the child it returns sits in a slot of the node that is maximal under
`NodeComp`: no child has more visits; if all children have zero visits no child
has a higher prior; and among the children with the same non-zero visit count
none has a higher `get_eval(color)`. -/
theorem get_best_root_child_maximal (cfg : Config) (cfg_lcb_min_visit_ratio : ℚ) (n : UCTNode)
    (color : Int) (hexp : n.m_expand_state = ExpandState.EXPANDED) (hne : n.m_children ≠ [])
    (hev : ∀ c ∈ n.m_children, c.get_visits ≠ 0 → ∃ e, c.get_eval cfg color = some e) :
    ∃ res best, n.get_best_root_child cfg cfg_lcb_min_visit_ratio color = some res ∧
      n.m_children[res.index]? = some best ∧
      best.inflate.get = some res.child ∧
      res.child.m_visits = best.get_visits ∧ res.child.m_policy = best.get_policy ∧
      (∀ c ∈ n.m_children, c.get_visits ≤ best.get_visits) ∧
      ((∀ c ∈ n.m_children, c.get_visits = 0) →
        ∀ c ∈ n.m_children, c.get_policy ≤ best.get_policy) ∧
      (best.get_visits ≠ 0 → ∀ c ∈ n.m_children, c.get_visits = best.get_visits →
        ∃ e eb, c.get_eval cfg color = some e ∧ best.get_eval cfg color = some eb ∧ e ≤ eb) := by
  obtain ⟨j, best, hj, hbest, hmax⟩ := max_element_spec (node_lt cfg color)
    (node_lt_irrefl cfg color) (node_lt_trans cfg color)
    (NodeComp cfg color (cfg_lcb_min_visit_ratio *
      (n.m_children.foldl (fun max_visits node => max max_visits node.get_visits) 0 : Int)))
    n.m_children hne
    (fun a ha b hb => NodeComp_eq cfg color _ a b (hev a ha) (hev b hb))
  have hempty : n.m_children.isEmpty = false := by
    cases hc : n.m_children with
    | nil => exact absurd hc hne
    | cons a t => rfl
  have hbmem : best ∈ n.m_children := List.getElem?_mem hbest
  have hget : ∃ child, best.inflate.get = some child ∧ child.m_visits = best.get_visits ∧
      child.m_policy = best.get_policy := by
    cases best with
    | deflated v p => exact ⟨_, rfl, rfl, rfl⟩
    | inflated d ch => exact ⟨_, rfl, rfl, rfl⟩
  obtain ⟨child, hchild, hcv, hcp⟩ := hget
  refine ⟨⟨{ n with m_children := n.m_children.set j best.inflate }, j, child⟩, best, ?_,
    hbest, hchild, hcv, hcp, ?_, ?_, ?_⟩
  · unfold UCTNode.get_best_root_child UCTNode.wait_expanded
    simp only [hexp, assert, if_true, Option.some_bind, hempty, Bool.false_eq_true,
      not_false_eq_true, hj, hbest, hchild, Option.map_some']
    simp
  · intro c hc
    have := hmax c hc
    unfold node_lt at this
    push_neg at this
    exact this.1
  · intro hall c hc
    have := hmax c hc
    unfold node_lt at this
    push_neg at this
    have h2 := this.2 ((hall best hbmem).trans (hall c hc).symm)
    rw [if_pos (hall best hbmem)] at h2
    exact not_lt.mp h2
  · intro hb0 c hc hcv2
    have := hmax c hc
    unfold node_lt at this
    push_neg at this
    have h2 := this.2 hcv2.symm
    rw [if_neg hb0] at h2
    obtain ⟨e, he⟩ := hev c hc (by rw [hcv2]; exact hb0)
    obtain ⟨eb, heb⟩ := hev best hbmem hb0
    rw [he, heb] at h2
    exact ⟨e, eb, he, heb, not_lt.mp h2⟩

/-- C16 at three children with three visits each and evaluation sums 2, 1, 2,
for Black: the first child, of evaluation 2/3, is returned. -/
theorem get_best_root_child_maximal_witness :
    ∃ res, (example_parent [example_child 1 (3/5) 3 2, example_child 2 (1/5) 3 1,
          example_child 3 (1/5) 3 2]).get_best_root_child example_config (1/10)
          example_config.BLACK = some res ∧
      res.index = 0 ∧ res.child.m_move = 1 := by
  obtain ⟨res, best, h1, _, _, _, _, _, _, _⟩ := get_best_root_child_maximal example_config (1/10)
    (example_parent [example_child 1 (3/5) 3 2, example_child 2 (1/5) 3 1,
      example_child 3 (1/5) 3 2]) example_config.BLACK rfl (by simp [example_parent])
    (by
      intro c hc _
      simp only [example_parent, List.mem_cons, List.mem_singleton, List.not_mem_nil,
        or_false] at hc
      rcases hc with rfl | rfl | rfl
      · exact ⟨2/3, by decide!⟩
      · exact ⟨1/3, by decide!⟩
      · exact ⟨2/3, by decide!⟩)
  have hev : ((example_parent [example_child 1 (3/5) 3 2, example_child 2 (1/5) 3 1,
      example_child 3 (1/5) 3 2]).get_best_root_child example_config (1/10)
      example_config.BLACK).map (fun r => (r.index, r.child.m_move)) = some (0, 1) := by
    decide!
  rw [h1] at hev
  simp only [Option.map_some', Option.some.injEq, Prod.mk.injEq] at hev
  exact ⟨res, h1, hev.1, hev.2⟩

/-! ## Theorems: selection -/

/-- A loop keeps what every one of its iterations keeps. -/
theorem foldl_keeps {α β : Type} (P : β → Prop) (f : β → α → β) (l : List α)
    (hstep : ∀ x ∈ l, ∀ b, P b → P (f b x)) (b : β) (hb : P b) : P (l.foldl f b) := by
  induction l generalizing b with
  | nil => exact hb
  | cons x xs ih =>
    rw [List.foldl_cons]
    exact ih (fun y hy => hstep y (List.mem_cons_of_mem _ hy)) _
      (hstep x (List.mem_cons_self _ _) b hb)

/-- A loop with assertions keeps what every one of its iterations keeps. -/
theorem foldlM_keeps {α β : Type} (P : β → Prop) (f : β → α → Option β) (l : List α)
    (hstep : ∀ x ∈ l, ∀ b b', P b → f b x = some b' → P b') (b r : β) (hb : P b)
    (h : l.foldlM f b = some r) : P r := by
  induction l generalizing b with
  | nil =>
    simp only [List.foldlM_nil, pure, Option.some.injEq] at h
    rw [← h]; exact hb
  | cons x xs ih =>
    rw [List.foldlM_cons] at h
    cases hf : f b x with
    | none => rw [hf] at h; simp at h
    | some b' =>
      rw [hf] at h
      exact ih (fun y hy => hstep y (List.mem_cons_of_mem _ hy)) b'
        (hstep x (List.mem_cons_self _ _) b b' hb hf) h

/-- The first loop of `uct_select_child` keeps `best` a valid slot. -/
theorem explore_step_best_valid (children : List UCTNodePointer) (ic : Nat × UCTNodePointer)
    (hic : ic ∈ children.enum) (st : ExploreLoop) (hst : best_valid children st.best) :
    best_valid children (explore_step st ic).best := by
  have hget : children[ic.1]? = some ic.2 := List.mem_enum_iff_getElem?.mp hic
  unfold explore_step
  by_cases hv : ic.2.valid = true
  · simp only [hv, Bool.not_true, Bool.false_eq_true, if_false]
    split_ifs
    · exact hst
    · exact hst
    · intro i hi
      simp only [Option.some.injEq] at hi
      exact ⟨ic.2, by rw [← hi]; exact hget, hv⟩
  · simp only [hv, Bool.not_false, if_true]
    exact hst

/-- The second loop of `uct_select_child` keeps `best` a valid slot. -/
theorem sample_step_best_valid (cfg : Config) (rng : Rng) (color : Int)
    (children : List UCTNodePointer) (ic : Nat × UCTNodePointer) (hic : ic ∈ children.enum)
    (st st' : SampleLoop) (hst : best_valid children st.best)
    (h : sample_step cfg rng color st ic = some st') : best_valid children st'.best := by
  have hget : children[ic.1]? = some ic.2 := List.mem_enum_iff_getElem?.mp hic
  have hnew : ic.2.active = true → best_valid children (some ic.1) := by
    intro ha i hi
    simp only [Option.some.injEq] at hi
    refine ⟨ic.2, by rw [← hi]; exact hget, ?_⟩
    cases hc : ic.2 with
    | deflated v p => rfl
    | inflated d ch =>
      rw [hc] at ha
      simp only [UCTNodePointer.active, decide_eq_true_eq] at ha
      simp [UCTNodePointer.valid, ha]
  unfold sample_step at h
  by_cases hskip : (!ic.2.active || decide (ic.2.get_visits = 0)) = true
  · simp only [hskip, if_true, Option.some.injEq] at h
    rw [← h]; exact hst
  · simp only [hskip, Bool.false_eq_true, if_false] at h
    have hact : ic.2.active = true := by
      simp only [Bool.or_eq_true, Bool.not_eq_true', decide_eq_true_eq, not_or,
        Bool.not_eq_false] at hskip
      exact hskip.1
    by_cases hexp : ic.2.is_expanding = true
    · simp only [hexp, if_true] at h
      split_ifs at h
      · simp only [Option.some.injEq] at h
        rw [← h]; exact hnew hact
      · simp only [Option.some.injEq] at h
        rw [← h]; exact hst
    · simp only [hexp, Bool.false_eq_true, if_false, Option.bind_eq_some] at h
      obtain ⟨param, _, _, _, h⟩ := h
      split_ifs at h
      · simp only [Option.some.injEq] at h
        rw [← h]; exact hnew hact
      · simp only [Option.some.injEq] at h
        rw [← h]; exact hst

/-- The index picked by the two loops of `uct_select_child` is a valid slot. -/
theorem picked_best_valid (cfg : Config) (rng : Rng) (color : Int)
    (children : List UCTNodePointer) (policy_explored : ℚ) (st : ExploreLoop)
    (hst : best_valid children st.best) (p : Option Nat × ℚ × Nat)
    (h : (match st.best with
      | none =>
        (children.enum.foldlM (sample_step cfg rng color)
          { best := st.best, best_value := DBL_LOWEST, draws := 0 }).map
          fun s => (s.best, policy_explored, s.draws)
      | some best =>
        if rng.uniform < policy_explored then
          (children.enum.foldlM (sample_step cfg rng color)
            { best := st.best, best_value := DBL_LOWEST, draws := 0 }).map
            fun s => (s.best, policy_explored, s.draws)
        else (children[best]?).map fun slot =>
          (some best, policy_explored + slot.get_policy, 0)) = some p) :
    best_valid children p.1 := by
  have hsampled : ∀ q : Option Nat × ℚ × Nat,
      (children.enum.foldlM (sample_step cfg rng color)
        { best := st.best, best_value := DBL_LOWEST, draws := 0 }).map
        (fun s => (s.best, policy_explored, s.draws)) = some q → best_valid children q.1 := by
    intro q hq
    simp only [Option.map_eq_some'] at hq
    obtain ⟨s, hs, rfl⟩ := hq
    exact foldlM_keeps (fun s : SampleLoop => best_valid children s.best)
      (sample_step cfg rng color) children.enum
      (fun x hx b b' hb hf => sample_step_best_valid cfg rng color children x hx b b' hb hf)
      _ s hst hs
  cases hb : st.best with
  | none =>
    rw [hb] at h
    simp only at h
    rw [← hb] at h
    exact hsampled p h
  | some b =>
    rw [hb] at h
    simp only at h
    split_ifs at h
    · rw [← hb] at h
      exact hsampled p h
    · simp only [Option.map_eq_some'] at h
      obtain ⟨slot, _, rfl⟩ := h
      rw [← hb]
      exact hst

/-- C20: whenever `uct_select_child` returns, for every value of the random
draws, the node it returns is the node of one of this node's child slots (the
slot at the index chosen, inflated by the call), the slot is valid, and the
status of the returned node is not INVALID. -/
theorem uct_select_child_valid (cfg : Config) (rng : Rng) (n : UCTNode) (color : Int)
    (is_root : Bool) (res : SelectResult)
    (h : n.uct_select_child cfg rng color is_root = some res) :
    ∃ slot, n.m_children[res.index]? = some slot ∧ slot.valid = true ∧
      slot.inflate.get = some res.child ∧
      res.node.m_children = n.m_children.set res.index slot.inflate ∧
      res.child.valid = true ∧ res.child.m_status ≠ Status.INVALID := by
  have hst : best_valid n.m_children (n.m_children.enum.foldl explore_step
      { max_policy := 0, policy_explored := 0, num_unexplored_children := 0,
        best := none }).best :=
    foldl_keeps (fun s : ExploreLoop => best_valid n.m_children s.best) explore_step
      n.m_children.enum
      (fun x hx b hb => explore_step_best_valid n.m_children x hx b hb) _
      (by intro i hi; simp at hi)
  unfold UCTNode.uct_select_child at h
  simp only [Option.bind_eq_some] at h
  obtain ⟨_, _, p, hpicked, _, _, best, hbest, slot, hslot, hmap⟩ := h
  simp only [Option.map_eq_some'] at hmap
  obtain ⟨child, hchild, rfl⟩ := hmap
  have hpv := picked_best_valid cfg rng color n.m_children _ _ hst p hpicked
  obtain ⟨c, hc, hcv⟩ := hpv best hbest
  have hslot2 : n.m_children[best]? = some slot := hslot
  rw [hc] at hslot2
  have hslot := hslot2
  simp only [Option.some.injEq] at hslot
  subst hslot
  have hvalid : child.valid = true := by
    cases c with
    | deflated v q =>
      simp only [UCTNodePointer.inflate, UCTNodePointer.get, Option.some.injEq] at hchild
      rw [← hchild]
      rfl
    | inflated d ch =>
      simp only [UCTNodePointer.inflate, UCTNodePointer.get, Option.some.injEq] at hchild
      rw [← hchild]
      exact hcv
  refine ⟨c, hc, hcv, hchild, rfl, hvalid, ?_⟩
  simpa [UCTNode.valid] using hvalid

/-- C20 at a node with two visited children and the uniform draw 1/2: both
children are sampled, the first one is returned and it is valid. -/
theorem uct_select_child_valid_witness :
    ∃ res slot,
      (example_parent [example_child 1 (3/5) 3 2, example_child 2 (2/5) 2 1]).uct_select_child
          example_config example_rng example_config.BLACK false = some res ∧
      res.index = 0 ∧ res.beta_draws = 2 ∧
      (example_parent [example_child 1 (3/5) 3 2, example_child 2 (2/5) 2 1]).m_children[
        res.index]? = some slot ∧
      slot.valid = true ∧ slot.inflate.get = some res.child ∧
      res.child.m_status ≠ Status.INVALID := by
  have hev : ((example_parent [example_child 1 (3/5) 3 2,
      example_child 2 (2/5) 2 1]).uct_select_child example_config example_rng
      example_config.BLACK false).map (fun r => (r.index, r.beta_draws)) = some (0, 2) := by
    decide!
  cases hres : (example_parent [example_child 1 (3/5) 3 2,
      example_child 2 (2/5) 2 1]).uct_select_child example_config example_rng
      example_config.BLACK false with
  | none => rw [hres] at hev; simp at hev
  | some res =>
    rw [hres] at hev
    simp only [Option.map_some', Option.some.injEq, Prod.mk.injEq] at hev
    obtain ⟨slot, h1, h2, h3, _, _, h6⟩ := uct_select_child_valid example_config example_rng
      (example_parent [example_child 1 (3/5) 3 2, example_child 2 (2/5) 2 1])
      example_config.BLACK false res hres
    exact ⟨res, slot, rfl, hev.1, hev.2, h1, h2, h3, h6⟩

/-- The first loop of `uct_select_child` on children none of which is valid and
visited: nothing is added to `policy_explored`, every valid child is counted,
and `best` becomes the first valid child that is not being expanded. -/
theorem explore_fold (l : List UCTNodePointer) (k : Nat) (st : ExploreLoop)
    (hno : ∀ c ∈ l, c.valid = true → ¬ c.get_visits > 0) :
    ((l.enumFrom k).foldl explore_step st).policy_explored = st.policy_explored ∧
    ((l.enumFrom k).foldl explore_step st).num_unexplored_children =
      st.num_unexplored_children + ((l.countP fun c => c.valid : Nat) : Int) ∧
    ((l.enumFrom k).foldl explore_step st).best =
      (match st.best with
        | some b => some b
        | none =>
          if l.findIdx selectable < l.length then some (k + l.findIdx selectable) else none) := by
  induction l generalizing k st with
  | nil =>
    refine ⟨rfl, by simp, ?_⟩
    simp only [List.enumFrom_nil, List.foldl_nil]
    cases st.best <;> simp
  | cons c l ih =>
    rw [List.enumFrom_cons, List.foldl_cons]
    obtain ⟨ih1, ih2, ih3⟩ := ih (k + 1) (explore_step st (k, c))
      (fun x hx => hno x (List.mem_cons_of_mem _ hx))
    rw [ih1, ih2, ih3]
    by_cases hv : c.valid = true
    · have hvis : ¬ c.get_visits > 0 := hno c (List.mem_cons_self _ _) hv
      by_cases hkeep : (st.best.isSome || c.is_expanding) = true
      · have hstep : explore_step st (k, c) =
            { st with max_policy := max st.max_policy c.get_policy,
                      num_unexplored_children := st.num_unexplored_children + 1 } := by
          unfold explore_step
          simp only [hv, Bool.not_true, Bool.false_eq_true, if_false, hvis, hkeep, if_true]
        rw [hstep]
        refine ⟨rfl, ?_, ?_⟩
        · simp only [List.countP_cons, hv, if_true]
          push_cast
          ring
        · cases hb : st.best with
          | some b => rfl
          | none =>
            have hexp : c.is_expanding = true := by
              rw [hb] at hkeep
              simpa using hkeep
            have hsel : selectable c = false := by simp [selectable, hexp]
            simp only [List.findIdx_cons, hsel, cond_false, List.length_cons,
              Nat.add_lt_add_iff_right]
            split_ifs
            · congr 1; omega
            · rfl
      · have hstep : explore_step st (k, c) =
            { st with max_policy := max st.max_policy c.get_policy,
                      num_unexplored_children := st.num_unexplored_children + 1,
                      best := some k } := by
          unfold explore_step
          simp only [hv, Bool.not_true, Bool.false_eq_true, if_false, hvis, hkeep]
        rw [hstep]
        simp only [Bool.or_eq_true, not_or, Bool.not_eq_true] at hkeep
        have hnone : st.best = none := by
          cases hb : st.best with
          | none => rfl
          | some b => rw [hb] at hkeep; simp at hkeep
        have hsel : selectable c = true := by simp [selectable, hv, hkeep.2]
        refine ⟨rfl, ?_, ?_⟩
        · simp only [List.countP_cons, hv, if_true]
          push_cast
          ring
        · rw [hnone]
          simp [List.findIdx_cons, hsel]
    · have hstep : explore_step st (k, c) = st := by
        unfold explore_step
        simp only [hv, Bool.not_false, if_true]
      have hvf : c.valid = false := by simpa using hv
      have hsel : selectable c = false := by simp [selectable, hvf]
      rw [hstep]
      refine ⟨rfl, ?_, ?_⟩
      · simp [List.countP_cons, hvf]
      · cases hb : st.best with
        | some b => rfl
        | none =>
          simp only [List.findIdx_cons, hsel, cond_false, List.length_cons,
            Nat.add_lt_add_iff_right]
          split_ifs
          · congr 1; omega
          · rfl

/-- C18: for every expanded node in which no valid child has visits above 0
and some valid child is not being expanded, and for every value of the random
draws, `uct_select_child` returns, draws no Beta sample, and returns the node
of the first valid child in list order that is not being expanded; when the
children are in non-increasing prior order this is the child of highest prior
among them. -/
theorem uct_select_child_unexplored (cfg : Config) (rng : Rng) (n : UCTNode) (color : Int)
    (is_root : Bool) (hexp : n.m_expand_state = ExpandState.EXPANDED)
    (hno : ∀ c ∈ n.m_children, c.valid = true → ¬ c.get_visits > 0)
    (hex : ∃ c ∈ n.m_children, c.valid = true ∧ c.is_expanding = false) :
    ∃ res slot, n.uct_select_child cfg rng color is_root = some res ∧
      res.beta_draws = 0 ∧
      res.index = n.m_children.findIdx selectable ∧
      n.m_children[res.index]? = some slot ∧
      slot.valid = true ∧ slot.is_expanding = false ∧
      (∀ i c, i < res.index → n.m_children[i]? = some c →
        ¬ (c.valid = true ∧ c.is_expanding = false)) ∧
      slot.inflate.get = some res.child ∧
      (n.m_children.Pairwise (fun a b => b.get_policy ≤ a.get_policy) →
        ∀ c ∈ n.m_children, c.valid = true → c.is_expanding = false →
          c.get_policy ≤ slot.get_policy) := by
  have hfind : n.m_children.findIdx selectable < n.m_children.length := by
    rw [List.findIdx_lt_length]
    obtain ⟨c, hc, hv, he⟩ := hex
    exact ⟨c, hc, by simp [selectable, hv, he]⟩
  have hslot : n.m_children[n.m_children.findIdx selectable]? =
      some (n.m_children[n.m_children.findIdx selectable]) := List.getElem?_eq_getElem hfind
  have hsel : selectable (n.m_children[n.m_children.findIdx selectable]) = true :=
    List.findIdx_getElem
  have hsel2 : (n.m_children[n.m_children.findIdx selectable]).valid = true ∧
      (n.m_children[n.m_children.findIdx selectable]).is_expanding = false := by
    simpa [selectable] using hsel
  have hcount : 0 < (n.m_children.countP fun c => c.valid) := by
    rw [List.countP_pos_iff]
    obtain ⟨c, hc, hv, _⟩ := hex
    exact ⟨c, hc, hv⟩
  obtain ⟨h1, h2, h3⟩ := explore_fold n.m_children 0
    { max_policy := 0, policy_explored := 0, num_unexplored_children := 0, best := none } hno
  simp only [hfind, if_true, zero_add] at h1 h2 h3
  have hget : ∃ child, (n.m_children[n.m_children.findIdx selectable]).inflate.get =
      some child := by
    cases n.m_children[n.m_children.findIdx selectable] with
    | deflated v p => exact ⟨_, rfl⟩
    | inflated d ch => exact ⟨_, rfl⟩
  obtain ⟨child, hchild⟩ := hget
  have hu : ¬ rng.uniform < 0 := not_lt.mpr rng.uniform_range.1
  have hnum : ¬ ((n.m_children.countP fun c => c.valid : Nat) : Int) = 0 := by omega
  refine ⟨⟨{ n with
        m_policy_explored := 0 + (n.m_children[n.m_children.findIdx selectable]).get_policy,
        m_children := n.m_children.set (n.m_children.findIdx selectable)
          (n.m_children[n.m_children.findIdx selectable]).inflate },
      n.m_children.findIdx selectable, child, 0⟩,
    n.m_children[n.m_children.findIdx selectable], ?_, rfl, rfl, hslot, hsel2.1, hsel2.2, ?_,
    hchild, ?_⟩
  · unfold UCTNode.uct_select_child UCTNode.wait_expanded
    simp only [hexp, assert, if_true, Option.some_bind, List.enum]
    generalize (List.foldl explore_step
      { max_policy := 0, policy_explored := 0, num_unexplored_children := 0, best := none }
      (List.enumFrom 0 n.m_children)) = S at h1 h2 h3 ⊢
    obtain ⟨mp, pe, num, b⟩ := S
    simp only at h1 h2 h3
    subst h1 h2 h3
    simp only [hnum, if_false, hu, hslot, Option.map_some', Option.some_bind, ne_eq,
      not_false_eq_true, if_true, hchild, reduceCtorEq]
  · intro i c hi hc hvc
    have hilt : i < n.m_children.length := lt_trans hi hfind
    have hnot := List.not_of_lt_findIdx hi
    have hci : n.m_children[i] = c := by
      rw [List.getElem?_eq_getElem hilt] at hc
      exact Option.some.inj hc
    rw [hci] at hnot
    simp [selectable, hvc.1, hvc.2] at hnot
  · intro hpw c hc hv he
    obtain ⟨j, hj, hcj⟩ := List.getElem_of_mem hc
    have hselc : selectable c = true := by simp [selectable, hv, he]
    have hle : n.m_children.findIdx selectable ≤ j := by
      by_contra hlt
      have hnot := List.not_of_lt_findIdx (not_le.mp hlt)
      rw [hcj, hselc] at hnot
      exact absurd hnot (by simp)
    rcases Nat.lt_or_eq_of_le hle with hlt | heq
    · have := (List.pairwise_iff_getElem.mp hpw) _ j hfind hj hlt
      rw [hcj] at this
      exact this
    · have hcc : n.m_children[n.m_children.findIdx selectable] = c := by
        rw [← hcj]
        congr 1
      rw [hcc]

/-- C18 at a node whose children are an invalid slot, a slot being expanded and
a deflated slot, none visited: the third slot is returned without a Beta
sample. -/
theorem uct_select_child_unexplored_witness :
    ∃ res,
      (example_parent [example_slot 1 (1/2) Status.INVALID ExpandState.INITIAL,
          example_slot 2 (1/3) Status.ACTIVE ExpandState.EXPANDING,
          UCTNodePointer.deflated 3 (1/6)]).uct_select_child
          example_config example_rng example_config.BLACK false = some res ∧
      res.beta_draws = 0 ∧ res.index = 2 ∧ res.child.m_move = 3 := by
  obtain ⟨res, slot, h1, h2, h3, h4, _, _, _, h8, _⟩ :=
    uct_select_child_unexplored example_config example_rng
      (example_parent [example_slot 1 (1/2) Status.INVALID ExpandState.INITIAL,
        example_slot 2 (1/3) Status.ACTIVE ExpandState.EXPANDING,
        UCTNodePointer.deflated 3 (1/6)]) example_config.BLACK false rfl
      (by
        intro c hc _
        simp only [example_parent, List.mem_cons, List.mem_singleton, List.not_mem_nil,
          or_false] at hc
        rcases hc with rfl | rfl | rfl <;> decide)
      ⟨UCTNodePointer.deflated 3 (1/6), by simp [example_parent], rfl, rfl⟩
  have hidx : res.index = 2 := by rw [h3]; decide!
  rw [hidx] at h4
  have hslot : slot = UCTNodePointer.deflated 3 (1/6) := by
    simp only [example_parent, List.getElem?_cons_succ, List.getElem?_cons_zero,
      Option.some.injEq] at h4
    exact h4.symm
  rw [hslot] at h8
  simp only [UCTNodePointer.inflate, UCTNodePointer.get, Option.some.injEq] at h8
  refine ⟨res, h1, h2, hidx, ?_⟩
  rw [← h8]
  rfl

/-! ## Theorems: validity of the Beta parameters -/

/-- The variance `get_beta_param` divides by is positive. -/
theorem clamped_variance_pos (variance : ℚ) :
    0 < (if variance < MIN_VARIANCE then MIN_VARIANCE else variance) := by
  have hmin : (0 : ℚ) < MIN_VARIANCE := by norm_num [MIN_VARIANCE]
  split_ifs with h
  · exact hmin
  · exact lt_of_lt_of_le hmin (not_lt.mp h)

/-- For a mean in [0, 1] and any variance, the parameters of `get_beta_param`
are both strictly positive exactly when the mean is neither 0 nor 1; they are
never negative. -/
theorem get_beta_param_valid_iff (cfg : Config) (n : UCTNode) (tomove : Int)
    (h0 : 0 ≤ (n.get_distribution cfg tomove).1) (h1 : (n.get_distribution cfg tomove).1 ≤ 1) :
    (valid_beta_param (n.get_beta_param cfg tomove) ↔
      0 < (n.get_distribution cfg tomove).1 ∧ (n.get_distribution cfg tomove).1 < 1) ∧
    0 ≤ (n.get_beta_param cfg tomove).1 ∧ 0 ≤ (n.get_beta_param cfg tomove).2 := by
  unfold valid_beta_param UCTNode.get_beta_param
  generalize (n.get_distribution cfg tomove) = d at h0 h1 ⊢
  obtain ⟨m, variance⟩ := d
  simp only at h0 h1 ⊢
  have hv := clamped_variance_pos variance
  generalize (if variance < MIN_VARIANCE then MIN_VARIANCE else variance) = v at hv ⊢
  have ha : 1 + m * (m * (1 - m) / v - 1) = (1 - m) * (1 + m ^ 2 / v) := by
    field_simp
    ring
  have hb : 1 + (1 - m) * (m * (1 - m) / v - 1) = m * (1 + (1 - m) ^ 2 / v) := by
    field_simp
    ring
  have hfa : 0 < 1 + m ^ 2 / v := by positivity
  have hfb : 0 < 1 + (1 - m) ^ 2 / v := by positivity
  rw [ha, hb]
  refine ⟨⟨fun h => ⟨?_, ?_⟩, fun h => ⟨?_, ?_⟩⟩, ?_, ?_⟩
  · exact (pos_iff_pos_of_mul_pos h.2).mpr hfb
  · have := (pos_iff_pos_of_mul_pos h.1).mpr hfa
    linarith
  · exact mul_pos (by linarith [h.2]) hfa
  · exact mul_pos h.1 hfb
  · exact mul_nonneg (by linarith) hfa.le
  · exact mul_nonneg h0 hfb.le

/-- C22 fails on the code when the mean is 1: for a node whose evaluator output
is a certain win for Black (mean 1, variance 1/25) `get_beta_param` returns the
pair (0, 1) for Black and (1, 0) for White, and so does a newly constructed
node (mean 0) with the colours exchanged; the visited child with this output
hands the pair (0, 1), which is not a Beta parameterisation, to the sampler of
`uct_select_child`. -/
theorem get_beta_param_zero_parameter :
    (example_net_node 1 (1/25)).get_distribution example_config example_config.BLACK
      = (1, 1/25) ∧
    (example_net_node 1 (1/25)).get_beta_param example_config example_config.BLACK = (0, 1) ∧
    (example_net_node 1 (1/25)).get_beta_param example_config example_config.WHITE = (1, 0) ∧
    (UCTNode.new 0 1).get_beta_param example_config example_config.BLACK = (1, 0) ∧
    (UCTNode.new 0 1).get_beta_param example_config example_config.WHITE = (0, 1) ∧
    (example_decided_child (1/25)).get_beta_param example_config example_config.BLACK
      = some (0, 1) ∧
    ¬ valid_beta_param (0, 1) ∧
    ∀ (rng : Rng) (st : SampleLoop),
      sample_step example_config rng example_config.BLACK st (0, example_decided_child (1/25)) =
        (assert (rng.beta st.draws 0 1 > DBL_LOWEST)).bind fun _ =>
          if rng.beta st.draws 0 1 > st.best_value then
            some { best := some 0, best_value := rng.beta st.draws 0 1, draws := st.draws + 1 }
          else some { st with draws := st.draws + 1 } := by
  have hp : (example_decided_child (1/25)).get_beta_param example_config example_config.BLACK
      = some (0, 1) := by decide!
  refine ⟨by decide!, by decide!, by decide!, by decide!, by decide!, hp, by decide!, ?_⟩
  intro rng st
  have hact : (example_decided_child (1/25)).active = true := by decide
  have hvis : (example_decided_child (1/25)).get_visits = 1 := rfl
  have hexp : (example_decided_child (1/25)).is_expanding = false := by decide
  simp only [sample_step, hact, hvis, hexp, hp, Option.some_bind]
  simp

/-! ## Theorems: the sorted children -/

/-- Where the comparison decides the order `lt`, the insertion step is the
ordered insertion for "not greater than". -/
theorem stable_insert_eq {α : Type} (lt : α → α → Prop) [DecidableRel lt]
    (comp : α → α → Option Bool) (a : α) (s : List α)
    (hcomp : ∀ b ∈ s, comp b a = some (decide (lt b a))) :
    stable_insert comp a s = some (s.orderedInsert (fun x y => ¬ lt y x) a) := by
  induction s with
  | nil => rfl
  | cons b l ih =>
    unfold stable_insert
    rw [hcomp b (List.mem_cons_self b l), List.orderedInsert]
    simp only [Option.some_bind, decide_eq_true_eq]
    by_cases h : lt b a
    · rw [if_pos h, if_neg (not_not.mpr h), ih (fun c hc => hcomp c (List.mem_cons_of_mem b hc))]
      rfl
    · rw [if_neg h, if_pos h]

/-- Where the comparison decides the order `lt`, `std::stable_sort` returns, and
its result is the insertion sort for "not greater than". -/
theorem stable_sort_comp_eq {α : Type} (lt : α → α → Prop) [DecidableRel lt]
    (comp : α → α → Option Bool) (l : List α)
    (hcomp : ∀ a ∈ l, ∀ b ∈ l, comp a b = some (decide (lt a b))) :
    stable_sort_comp comp l = some (l.insertionSort (fun x y => ¬ lt y x)) := by
  induction l with
  | nil => rfl
  | cons a l ih =>
    unfold stable_sort_comp
    rw [ih (fun x hx y hy => hcomp x (List.mem_cons_of_mem a hx) y (List.mem_cons_of_mem a hy))]
    simp only [Option.some_bind, List.insertionSort]
    apply stable_insert_eq
    intro b hb
    rw [List.mem_insertionSort] at hb
    exact hcomp b (List.mem_cons_of_mem a hb) a (List.mem_cons_self a l)

/-- The loop of `std::max_element` returns the index of the first of the
elements that no element of the range exceeds. -/
theorem max_element_loop_first {α : Type} (lt : α → α → Prop) [DecidableRel lt]
    (hirr : ∀ a, ¬ lt a a) (htrans : ∀ a b c, lt a b → lt b c → lt a c)
    (hneg : ∀ a b c, lt a c → lt a b ∨ lt b c)
    (comp : α → α → Option Bool) (whole : List α)
    (hcomp : ∀ a ∈ whole, ∀ b ∈ whole, comp a b = some (decide (lt a b)))
    (l pre : List α) (hw : whole = pre ++ l) (largest : Nat) (lv : α)
    (hlv : whole[largest]? = some lv) (hmax : ∀ y ∈ pre, ¬ lt lv y)
    (hbefore : ∀ k y, k < largest → whole[k]? = some y → lt y lv) :
    ∃ j v, max_element_loop comp l pre.length largest lv = some j ∧ whole[j]? = some v ∧
      (∀ y ∈ whole, ¬ lt v y) ∧ ∀ k y, k < j → whole[k]? = some y → lt y v := by
  induction l generalizing pre largest lv with
  | nil =>
    refine ⟨largest, lv, rfl, hlv, ?_, hbefore⟩
    rw [hw, List.append_nil]
    exact hmax
  | cons x xs ih =>
    have hlvmem : lv ∈ whole := List.getElem?_mem hlv
    have hxmem : x ∈ whole := by rw [hw]; simp
    have hw2 : whole = (pre ++ [x]) ++ xs := by rw [hw]; simp
    have hlen : (pre ++ [x]).length = pre.length + 1 := by simp
    unfold max_element_loop
    rw [hcomp lv hlvmem x hxmem]
    simp only [Option.some_bind, decide_eq_true_eq]
    by_cases hlt : lt lv x
    · rw [if_pos hlt, ← hlen]
      apply ih (pre ++ [x]) hw2 pre.length x
      · rw [hw2, List.getElem?_append_left (by simp)]
        exact List.getElem?_concat_length pre x
      · intro y hy hxy
        rcases List.mem_append.mp hy with hy | hy
        · exact hmax y hy (htrans lv x y hlt hxy)
        · simp only [List.mem_singleton] at hy
          rw [hy] at hxy
          exact hirr x hxy
      · intro k y hk hky
        have hypre : y ∈ pre := by
          rw [hw, List.getElem?_append_left hk] at hky
          exact List.getElem?_mem hky
        rcases hneg lv y x hlt with h | h
        · exact absurd h (hmax y hypre)
        · exact h
    · rw [if_neg hlt, ← hlen]
      apply ih (pre ++ [x]) hw2 largest lv hlv
      · intro y hy
        rcases List.mem_append.mp hy with hy | hy
        · exact hmax y hy
        · simp only [List.mem_singleton] at hy
          rw [hy]
          exact hlt
      · exact hbefore

/-- On a non-empty range `std::max_element` returns the index of the first of
the elements that no element of the range exceeds. -/
theorem max_element_first {α : Type} (lt : α → α → Prop) [DecidableRel lt]
    (hirr : ∀ a, ¬ lt a a) (htrans : ∀ a b c, lt a b → lt b c → lt a c)
    (hneg : ∀ a b c, lt a c → lt a b ∨ lt b c)
    (comp : α → α → Option Bool) (whole : List α) (hne : whole ≠ [])
    (hcomp : ∀ a ∈ whole, ∀ b ∈ whole, comp a b = some (decide (lt a b))) :
    ∃ j v, max_element comp whole = some j ∧ whole[j]? = some v ∧
      (∀ y ∈ whole, ¬ lt v y) ∧ ∀ k y, k < j → whole[k]? = some y → lt y v := by
  cases whole with
  | nil => exact absurd rfl hne
  | cons a t =>
    have := max_element_loop_first lt hirr htrans hneg comp (a :: t) hcomp t [a] rfl 0 a
      (by simp)
      (by intro y hy; simp only [List.mem_singleton] at hy; rw [hy]; exact hirr a)
      (by intro k y hk; exact absurd hk (Nat.not_lt_zero k))
    simpa [max_element] using this

/-- Two slots of a list, tagged with their indices, in the order of the indices. -/
theorem pair_sublist_enum {α : Type} (l : List α) (j i : Nat) (x y : α) (hji : j < i)
    (hj : l[j]? = some x) (hi : l[i]? = some y) :
    List.Sublist [(j, x), (i, y)] l.enum := by
  have hjl : j < l.enum.length := by
    rw [List.enum_length]
    exact (List.getElem?_eq_some_iff.mp hj).1
  have hEj : l.enum[j] = (j, x) := by
    have := List.getElem?_enum l j
    rw [hj, List.getElem?_eq_getElem hjl] at this
    simpa using this
  have hsplit : l.enum = l.enum.take j ++ (j, x) :: l.enum.drop (j + 1) := by
    rw [← hEj, ← List.drop_eq_getElem_cons hjl, List.take_append_drop]
  have hmem : (i, y) ∈ l.enum.drop (j + 1) := by
    rw [List.mem_iff_getElem?]
    refine ⟨i - (j + 1), ?_⟩
    rw [List.getElem?_drop, List.getElem?_enum]
    have : j + 1 + (i - (j + 1)) = i := by omega
    rw [this, hi]
    rfl
  rw [hsplit]
  exact List.sublist_append_of_sublist_right
    (List.Sublist.cons₂ _ (List.singleton_sublist.mpr hmem))

/-- A stable ascending sort of the reversed list, read backwards, starts with
the first of the greatest elements of the list. -/
theorem head_sorted_enum {α : Type} (lt : α → α → Prop) [DecidableRel lt]
    (l : List α) (j : Nat) (x : α) (hj : l[j]? = some x)
    (hmax : ∀ y ∈ l, ¬ lt x y)
    (hfirst : ∀ k y, k < j → l[k]? = some y → lt y x)
    (S : List (Nat × α)) (hS : S = l.enum.reverse.insertionSort (fun p q => ¬ lt q.2 p.2))
    (hsorted : S.Pairwise (fun p q => ¬ lt q.2 p.2)) :
    S.reverse.head? = some (j, x) := by
  have hperm : S.reverse.Perm l.enum := by
    rw [hS]
    exact (List.reverse_perm _).trans
      ((List.perm_insertionSort _ _).trans (List.reverse_perm _))
  have hnodup : S.reverse.Nodup := by
    rw [hperm.nodup_iff]
    exact List.Nodup.of_map Prod.fst (by rw [List.enum_map_fst]; exact List.nodup_range _)
  have hpair : S.reverse.Pairwise (fun a b => ¬ lt a.2 b.2) := List.pairwise_reverse.mpr hsorted
  have hjx : (j, x) ∈ S.reverse := hperm.mem_iff.mpr (List.mk_mem_enum_iff_getElem?.mpr hj)
  cases hR : S.reverse with
  | nil => rw [hR] at hjx; exact absurd hjx (List.not_mem_nil _)
  | cons h t =>
    obtain ⟨i, y⟩ := h
    rw [hR] at hjx hnodup hpair hperm
    have hi : l[i]? = some y :=
      List.mk_mem_enum_iff_getElem?.mp (hperm.mem_iff.mp (List.mem_cons_self _ _))
    rw [List.head?_cons]
    rcases Nat.lt_trichotomy i j with hij | hij | hij
    · exfalso
      have hyx : lt y x := hfirst i y hij hi
      rcases List.mem_cons.mp hjx with h | h
      · simp only [Prod.mk.injEq] at h
        omega
      · exact (List.pairwise_cons.mp hpair).1 (j, x) h hyx
    · subst hij
      rw [hj] at hi
      simp only [Option.some.injEq] at hi
      rw [hi]
    · exfalso
      have hsub : List.Sublist [(i, y), (j, x)] l.enum.reverse := by
        have := (pair_sublist_enum l j i x y hij hj hi).reverse
        simpa using this
      have hsub2 : List.Sublist [(i, y), (j, x)] S := by
        rw [hS]
        exact List.pair_sublist_insertionSort (hmax y (List.getElem?_mem hi)) hsub
      have hsub3 : List.Sublist [(j, x), (i, y)] ((i, y) :: t) := by
        rw [← hR]
        simpa using hsub2.reverse
      have hmem : (i, y) ∈ t := by
        cases hsub3 with
        | cons _ h => exact h.subset (by simp)
        | cons₂ _ h => exact h.subset (by simp)
      exact (List.nodup_cons.mp hnodup).1 hmem

/-- The insertion sort for "not greater than" under a strict weak order is sorted. -/
theorem sorted_insertionSort_not_gt {α : Type} (lt : α → α → Prop) [DecidableRel lt]
    (hirr : ∀ a, ¬ lt a a) (htrans : ∀ a b c, lt a b → lt b c → lt a c)
    (hneg : ∀ a b c, lt a c → lt a b ∨ lt b c) (l : List α) :
    (l.insertionSort (fun x y => ¬ lt y x)).Pairwise (fun x y => ¬ lt y x) := by
  haveI : IsTotal α (fun x y => ¬ lt y x) :=
    ⟨fun a b => by
      by_cases h : lt b a
      · exact Or.inr (fun h2 => hirr a (htrans a b a h2 h))
      · exact Or.inl h⟩
  haveI : IsTrans α (fun x y => ¬ lt y x) :=
    ⟨fun a b c hab hbc hca => by
      rcases hneg c b a hca with h | h
      · exact hbc h
      · exact hab h⟩
  exact List.sorted_insertionSort (fun x y => ¬ lt y x) l

/-- The order of `NodeComp` is a strict weak order: a slot between two ordered
slots is above the lower or below the upper one. -/
theorem node_lt_neg_trans (cfg : Config) (color : Int) (a b c : UCTNodePointer)
    (hac : node_lt cfg color a c) : node_lt cfg color a b ∨ node_lt cfg color b c := by
  unfold node_lt at *
  rcases hac with hac | ⟨hv, h2⟩
  · by_cases h : a.get_visits < b.get_visits
    · exact Or.inl (Or.inl h)
    · exact Or.inr (Or.inl (lt_of_le_of_lt (not_lt.mp h) hac))
  · rcases lt_trichotomy a.get_visits b.get_visits with h | h | h
    · exact Or.inl (Or.inl h)
    · have hbc : b.get_visits = c.get_visits := h.symm.trans hv
      by_cases h0 : a.get_visits = 0
      · have hb0 : b.get_visits = 0 := by rw [← h]; exact h0
        rw [if_pos h0] at h2
        rcases lt_or_le a.get_policy b.get_policy with hk | hk
        · exact Or.inl (Or.inr ⟨h, by rw [if_pos h0]; exact hk⟩)
        · exact Or.inr (Or.inr ⟨hbc, by rw [if_pos hb0]; exact lt_of_le_of_lt hk h2⟩)
      · have hb0 : ¬ b.get_visits = 0 := by rw [← h]; exact h0
        rw [if_neg h0] at h2
        rcases lt_or_le ((a.get_eval cfg color).getD 0) ((b.get_eval cfg color).getD 0)
          with hk | hk
        · exact Or.inl (Or.inr ⟨h, by rw [if_neg h0]; exact hk⟩)
        · exact Or.inr (Or.inr ⟨hbc, by rw [if_neg hb0]; exact lt_of_le_of_lt hk h2⟩)
    · exact Or.inr (Or.inl (by rw [← hv]; exact h))

/-- C21: for every expanded node with at least one child whose visited children
have a defined `get_eval`, every colour and every `lcb_min_visits`,
`sort_children` and `get_best_root_child` both return, and the slot that
`sort_children` places first is the slot of the unsorted list, at the same
index, whose node `get_best_root_child` returns, also when several children
are tied under `NodeComp`; `sort_children` only permutes the children: the
sorted list is a permutation of the list, each slot coming from one index of
it, and the scalar members of the node are unchanged. -/
theorem sort_children_first_is_best (cfg : Config) (cfg_lcb_min_visit_ratio lcb_min_visits : ℚ)
    (n : UCTNode) (color : Int) (hexp : n.m_expand_state = ExpandState.EXPANDED)
    (hne : n.m_children ≠ [])
    (hev : ∀ c ∈ n.m_children, c.get_visits ≠ 0 → ∃ e, c.get_eval cfg color = some e) :
    ∃ sorted slots res best,
      n.sort_children cfg color lcb_min_visits = some sorted ∧
      n.sort_children_slots cfg color lcb_min_visits = some slots ∧
      n.get_best_root_child cfg cfg_lcb_min_visit_ratio color = some res ∧
      slots.map Prod.snd = sorted.m_children ∧
      slots.Perm n.m_children.enum ∧
      sorted.m_children.Perm n.m_children ∧
      sorted.toNodeData = n.toNodeData ∧
      n.m_children[res.index]? = some best ∧
      slots.head? = some (res.index, best) ∧
      sorted.m_children.head? = some best ∧
      best.inflate.get = some res.child := by
  have hcomp : ∀ lcb : ℚ, ∀ a ∈ n.m_children, ∀ b ∈ n.m_children,
      NodeComp cfg color lcb a b = some (decide (node_lt cfg color a b)) :=
    fun lcb a ha b hb => NodeComp_eq cfg color lcb a b (hev a ha) (hev b hb)
  have hmemE : ∀ p ∈ n.m_children.enum.reverse, p.2 ∈ n.m_children := by
    intro p hp
    obtain ⟨i, c⟩ := p
    exact List.getElem?_mem (List.mk_mem_enum_iff_getElem?.mp (List.mem_reverse.mp hp))
  -- the sort of the children and the sort of the tagged slots
  have hsort := stable_sort_comp_eq (node_lt cfg color) (NodeComp cfg color lcb_min_visits)
    n.m_children.reverse
    (fun a ha b hb => hcomp lcb_min_visits a (List.mem_reverse.mp ha) b (List.mem_reverse.mp hb))
  have hslots := stable_sort_comp_eq
    (fun p q : Nat × UCTNodePointer => node_lt cfg color p.2 q.2)
    (fun a b => NodeComp cfg color lcb_min_visits a.2 b.2) n.m_children.enum.reverse
    (fun a ha b hb => hcomp lcb_min_visits a.2 (hmemE a ha) b.2 (hmemE b hb))
  -- the choice of `get_best_root_child`
  obtain ⟨j, best, hj, hbest, hmax, hfirst⟩ := max_element_first (node_lt cfg color)
    (node_lt_irrefl cfg color) (node_lt_trans cfg color) (node_lt_neg_trans cfg color)
    (NodeComp cfg color (cfg_lcb_min_visit_ratio *
      (n.m_children.foldl (fun max_visits node => max max_visits node.get_visits) 0 : Int)))
    n.m_children hne (hcomp _)
  have hempty : n.m_children.isEmpty = false := by
    cases hc : n.m_children with
    | nil => exact absurd hc hne
    | cons a t => rfl
  have hget : ∃ child, best.inflate.get = some child := by
    cases best with
    | deflated v p => exact ⟨_, rfl⟩
    | inflated d ch => exact ⟨_, rfl⟩
  obtain ⟨child, hchild⟩ := hget
  have hsorted := sorted_insertionSort_not_gt
    (fun p q : Nat × UCTNodePointer => node_lt cfg color p.2 q.2)
    (fun a => node_lt_irrefl cfg color a.2)
    (fun a b c => node_lt_trans cfg color a.2 b.2 c.2)
    (fun a b c => node_lt_neg_trans cfg color a.2 b.2 c.2) n.m_children.enum.reverse
  have hhead := head_sorted_enum (node_lt cfg color) n.m_children j best hbest hmax hfirst
    _ rfl hsorted
  have hmap : ((n.m_children.enum.reverse.insertionSort
      (fun p q : Nat × UCTNodePointer => ¬ node_lt cfg color q.2 p.2)).reverse).map Prod.snd
      = (n.m_children.reverse.insertionSort (fun x y => ¬ node_lt cfg color y x)).reverse := by
    rw [List.map_reverse, List.map_insertionSort
      (fun p q : Nat × UCTNodePointer => ¬ node_lt cfg color q.2 p.2)
      (fun x y => ¬ node_lt cfg color y x) Prod.snd _ (fun _ _ _ _ => Iff.rfl),
      List.map_reverse, List.enum_map_snd]
  refine ⟨{ n with m_children :=
      (n.m_children.reverse.insertionSort (fun x y => ¬ node_lt cfg color y x)).reverse },
    (n.m_children.enum.reverse.insertionSort
      (fun p q : Nat × UCTNodePointer => ¬ node_lt cfg color q.2 p.2)).reverse,
    ⟨{ n with m_children := n.m_children.set j best.inflate }, j, child⟩, best,
    ?_, ?_, ?_, hmap, ?_, ?_, rfl, hbest, hhead, ?_, hchild⟩
  · unfold UCTNode.sort_children
    rw [hsort]
    rfl
  · unfold UCTNode.sort_children_slots
    rw [hslots]
    rfl
  · unfold UCTNode.get_best_root_child UCTNode.wait_expanded
    simp only [hexp, assert, if_true, Option.some_bind, hempty, Bool.false_eq_true,
      not_false_eq_true, hj, hbest, hchild, Option.map_some']
    simp
  · exact (List.reverse_perm _).trans
      ((List.perm_insertionSort _ _).trans (List.reverse_perm _))
  · exact (List.reverse_perm _).trans
      ((List.perm_insertionSort _ _).trans (List.reverse_perm _))
  · show ((n.m_children.reverse.insertionSort
      (fun x y => ¬ node_lt cfg color y x)).reverse).head? = some best
    rw [← hmap, List.head?_map, hhead]
    rfl

/-- C21 at four children of which the second and the third are tied for the
best under `NodeComp`, for Black: `sort_children` places the second slot
(index 1) first, the third next, and `get_best_root_child` returns the node of
the second slot. -/
theorem sort_children_first_is_best_witness :
    ∃ sorted slots res,
      (example_parent example_tied_children).sort_children example_config
        example_config.BLACK 0 = some sorted ∧
      (example_parent example_tied_children).sort_children_slots example_config
        example_config.BLACK 0 = some slots ∧
      (example_parent example_tied_children).get_best_root_child example_config (1/10)
        example_config.BLACK = some res ∧
      sorted.m_children.map UCTNodePointer.get_move = [2, 3, 1, 4] ∧
      slots.map Prod.fst = [1, 2, 0, 3] ∧ res.index = 1 ∧ res.child.m_move = 2 := by
  obtain ⟨sorted, slots, res, best, h1, h2, h3, _⟩ := sort_children_first_is_best
    example_config (1/10) 0 (example_parent example_tied_children) example_config.BLACK rfl
    (by simp [example_parent, example_tied_children])
    (by
      intro c hc hv
      simp only [example_parent, example_tied_children, List.mem_cons, List.mem_singleton,
        List.not_mem_nil, or_false] at hc
      rcases hc with rfl | rfl | rfl | rfl
      · exact ⟨1/3, by decide!⟩
      · exact ⟨2/3, by decide!⟩
      · exact ⟨2/3, by decide!⟩
      · exact absurd rfl hv)
  have e1 : ((example_parent example_tied_children).sort_children example_config
      example_config.BLACK 0).map (fun s => s.m_children.map UCTNodePointer.get_move)
      = some [2, 3, 1, 4] := by decide!
  have e2 : ((example_parent example_tied_children).sort_children_slots example_config
      example_config.BLACK 0).map (fun s => s.map Prod.fst) = some [1, 2, 0, 3] := by decide!
  have e3 : ((example_parent example_tied_children).get_best_root_child example_config (1/10)
      example_config.BLACK).map (fun r => (r.index, r.child.m_move)) = some (1, 2) := by
    decide!
  rw [h1] at e1
  rw [h2] at e2
  rw [h3] at e3
  simp only [Option.map_some', Option.some.injEq, Prod.mk.injEq] at e1 e2 e3
  exact ⟨sorted, slots, res, h1, h2, h3, e1, e2, e3.1, e3.2⟩

end LeelaZero
